import Mathlib

/-!
Verification of the Elementor extract → transform → replace content pipeline
(`exctractv2.py`, `transformv2.py`, `replacev2.py`).

The JSON widget tree embedded in the WordPress export's `_elementor_data`
metadata field is modelled by `JVal`; Python dicts are ordered association
lists (JSON objects have unique keys, and `json.loads` collapses duplicates,
so the first-binding convention used throughout agrees with Python's dicts
on every tree that can actually reach this code).  Pure Python functions
become Lean functions; the in-place mutation done by the replacer acts on a
deep copy of its input (replacev2.py:147), so it is modelled by a pure
rewriting function on trees.
-/

namespace Elementor

/-- A JSON value, the shape of the parsed `_elementor_data` payload. -/
inductive JVal where
  | str (s : String)
  | num (n : Int)
  | bool (b : Bool)
  | null
  | arr (xs : List JVal)
  | obj (fields : List (String × JVal))

mutual
def jvalBeq : JVal → JVal → Bool
  | .str s, .str t => s == t
  | .num n, .num m => n == m
  | .bool a, .bool b => a == b
  | .null, .null => true
  | .arr xs, .arr ys => jlistBeq xs ys
  | .obj fs, .obj gs => jfieldsBeq fs gs
  | _, _ => false
def jlistBeq : List JVal → List JVal → Bool
  | [], [] => true
  | x :: xs, y :: ys => jvalBeq x y && jlistBeq xs ys
  | _, _ => false
def jfieldsBeq : List (String × JVal) → List (String × JVal) → Bool
  | [], [] => true
  | (k, v) :: fs, (l, w) :: gs => k == l && jvalBeq v w && jfieldsBeq fs gs
  | _, _ => false
end

mutual
theorem jvalBeq_iff : ∀ a b : JVal, jvalBeq a b = true ↔ a = b
  | .str s, b => by cases b <;> simp [jvalBeq]
  | .num n, b => by cases b <;> simp [jvalBeq]
  | .bool x, b => by cases b <;> simp [jvalBeq]
  | .null, b => by cases b <;> simp [jvalBeq]
  | .arr xs, b => by
    cases b <;> simp [jvalBeq]
    exact jlistBeq_iff xs _
  | .obj fs, b => by
    cases b <;> simp [jvalBeq]
    exact jfieldsBeq_iff fs _
theorem jlistBeq_iff : ∀ xs ys : List JVal, jlistBeq xs ys = true ↔ xs = ys
  | [], ys => by cases ys <;> simp [jlistBeq]
  | x :: xs, ys => by
    cases ys with
    | nil => simp [jlistBeq]
    | cons y ys => simp [jlistBeq, jvalBeq_iff x y, jlistBeq_iff xs ys]
theorem jfieldsBeq_iff : ∀ fs gs : List (String × JVal), jfieldsBeq fs gs = true ↔ fs = gs
  | [], gs => by cases gs <;> simp [jfieldsBeq]
  | (k, v) :: fs, gs => by
    cases gs with
    | nil => simp [jfieldsBeq]
    | cons g gs =>
      cases g with
      | mk l w => simp [jfieldsBeq, jvalBeq_iff v w, jfieldsBeq_iff fs gs, and_assoc]
end

instance : DecidableEq JVal := fun a b => decidable_of_iff _ (jvalBeq_iff a b)

/-- Structural induction for `JVal` that hands the inductive hypothesis to
    every member of an array or object. -/
theorem JVal.myInd (P : JVal → Prop)
    (h1 : ∀ s, P (.str s)) (h2 : ∀ n, P (.num n)) (h3 : ∀ b, P (.bool b)) (h4 : P .null)
    (h5 : ∀ xs, (∀ x ∈ xs, P x) → P (.arr xs))
    (h6 : ∀ fs, (∀ kv ∈ fs, P kv.2) → P (.obj fs)) :
    ∀ v, P v
  | .str s => h1 s
  | .num n => h2 n
  | .bool b => h3 b
  | .null => h4
  | .arr xs => h5 xs (fun x _ => JVal.myInd P h1 h2 h3 h4 h5 h6 x)
  | .obj fs => h6 fs (fun kv _ => JVal.myInd P h1 h2 h3 h4 h5 h6 kv.2)
termination_by v => sizeOf v
decreasing_by
  · rename_i hx
    have := List.sizeOf_lt_of_mem hx
    simp only [JVal.arr.sizeOf_spec]
    omega
  · rename_i hkv
    have h := List.sizeOf_lt_of_mem hkv
    have h2 : sizeOf kv.2 < sizeOf kv := by
      obtain ⟨a, c⟩ := kv
      simp
    simp only [JVal.obj.sizeOf_spec]
    omega

/-- Python `d[k]` / `d.get(k)` without default: the (first) binding of `k`. -/
def lookupF : List (String × JVal) → String → Option JVal
  | [], _ => none
  | (l, v) :: fs, k => if l = k then some v else lookupF fs k

/-- Python `d[k] = v` for a key already present: update the binding in place,
    preserving insertion order.  (The replacer only ever assigns under an
    `if key in settings` guard, so assignment to a missing key never occurs.) -/
def setF : List (String × JVal) → String → JVal → List (String × JVal)
  | [], _, _ => []
  | (l, v) :: fs, k, w => if l = k then (l, w) :: fs else (l, v) :: setF fs k w

/-- Python `d.get(k, default)`. -/
def getD (fs : List (String × JVal)) (k : String) (d : JVal) : JVal :=
  match lookupF fs k with
  | some v => v
  | none => d

def keysOf (fs : List (String × JVal)) : List String := fs.map (fun p => p.1)

/-- Python truthiness of a JSON value: `""`, `0`, `False`, `None`, `[]` and
    the empty dict are falsy. -/
def truthy : JVal → Bool
  | .str s => s != ""
  | .num n => n != 0
  | .bool b => b
  | .null => false
  | .arr xs => !xs.isEmpty
  | .obj fs => !fs.isEmpty

/-- Python `a or b`. -/
def pyOr (a b : JVal) : JVal := if truthy a then a else b

/-- Python `str()` as used inside the `f"section_..."` format strings.  Real
    Elementor ids are strings; the container fallbacks are a simplified repr
    whose exact text no claim depends on (an id would have to be a list or a
    dict to reach them). -/
def pyStr : JVal → String
  | .str s => s
  | .num n => toString n
  | .bool b => if b then "True" else "False"
  | .null => "None"
  | .arr _ => "[...]"
  | .obj _ => "\x7b...\x7d"

/-- The section-name update performed identically by `process_element`
    (exctractv2.py:126-129) and `replace_recursive` (replacev2.py:108-111):
    when `elType` is `"section"`, recompute the name from
    `settings.section_label` with the synthetic `section_<id>` fallback
    (`element.get('settings', {})` defaults to an empty dict, so an absent
    `settings` key also yields the synthetic name); a settings value that is
    not a dict leaves the ambient name unchanged. -/
def updateSection (fs : List (String × JVal)) (sec : JVal) : JVal :=
  if getD fs "elType" (.str "") = .str "section" then
    match getD fs "settings" (.obj []) with
    | .obj sf => getD sf "section_label" (.str ("section_" ++ pyStr (getD fs "id" (.str ""))))
    | _ => sec
  else sec

/-! ### Text cleaning (`_clean_html_content`, exctractv2.py:235-241) -/

/-- Python's `\s` on the characters that occur in this pipeline (the ASCII
    whitespace class plus the non-breaking space produced by `&nbsp;`). -/
def isPySpace (c : Char) : Bool :=
  c = ' ' || c = '\t' || c = '\n' || c = '\r' || c = '\x0b' || c = '\x0c' || c = ' '

/-- Source `re.sub(r'</?p>', '', text)` (exctractv2.py:237): drop every literal
    `<p>` and `</p>`, scanning left to right. -/
def rmPTags : List Char → List Char
  | '<' :: 'p' :: '>' :: rest => rmPTags rest
  | '<' :: '/' :: 'p' :: '>' :: rest => rmPTags rest
  | c :: rest => c :: rmPTags rest
  | [] => []

/-- Source `re.sub(r'<[^>]+>', '', text)` (exctractv2.py:238) as a left-to-right
    scanner.  State `some acc` means we are inside a candidate `<…` whose body
    read so far is `acc` (reversed); `<>` is not a match (the body needs at
    least one character), and an unterminated `<…` is kept verbatim, exactly
    as the regex leaves it. -/
def rmTagsGo : List Char → Option (List Char) → List Char
  | [], none => []
  | [], some acc => '<' :: acc.reverse
  | c :: rest, none => if c = '<' then rmTagsGo rest (some []) else c :: rmTagsGo rest none
  | c :: rest, some acc =>
    if c = '>' then
      (if acc.isEmpty then '<' :: '>' :: rmTagsGo rest none else rmTagsGo rest none)
    else rmTagsGo rest (some (c :: acc))

/-- Source `html.unescape(text)` (exctractv2.py:239), modelled for the common named
    and numeric entities; no claim depends on the rest of the HTML5 entity
    table (or on Python's entity-without-semicolon tolerance). -/
def unescapeEnt : List Char → List Char
  | '&' :: 'a' :: 'm' :: 'p' :: ';' :: rest => '&' :: unescapeEnt rest
  | '&' :: 'l' :: 't' :: ';' :: rest => '<' :: unescapeEnt rest
  | '&' :: 'g' :: 't' :: ';' :: rest => '>' :: unescapeEnt rest
  | '&' :: 'q' :: 'u' :: 'o' :: 't' :: ';' :: rest => '"' :: unescapeEnt rest
  | '&' :: '#' :: '3' :: '9' :: ';' :: rest => '\'' :: unescapeEnt rest
  | '&' :: 'n' :: 'b' :: 's' :: 'p' :: ';' :: rest => ' ' :: unescapeEnt rest
  | c :: rest => c :: unescapeEnt rest
  | [] => []

/-- Source `re.sub(r'\s+', ' ', text)` (exctractv2.py:240): squeeze every whitespace
    run to a single space; the flag records whether we are inside a run. -/
def collapseWs : List Char → Bool → List Char
  | [], _ => []
  | c :: rest, inRun =>
    if isPySpace c then
      (if inRun then collapseWs rest true else ' ' :: collapseWs rest true)
    else c :: collapseWs rest false

/-- Python `str.strip()`. -/
def stripChars (cs : List Char) : List Char :=
  ((cs.dropWhile isPySpace).reverse.dropWhile isPySpace).reverse

/-- Source `_clean_html_content` (exctractv2.py:235-241): drop `<p>`/`</p>`, drop the
    remaining tags, unescape entities, squeeze whitespace, strip. -/
def cleanHtmlContent (s : String) : String :=
  String.mk (stripChars (collapseWs (unescapeEnt (rmTagsGo (rmPTags s.toList) none)) false))

/-! ### Hex colors and composite-label keys -/

def isHexChar (c : Char) : Bool :=
  ('0' ≤ c && c ≤ '9') || ('a' ≤ c && c ≤ 'f') || ('A' ≤ c && c ≤ 'F')

/-- The body accepted by `^#(?:[0-9a-fA-F]{3}){1,2}$`: a `#` then exactly
    three or exactly six hex digits. -/
def hexColorBody (cs : List Char) : Bool :=
  match cs with
  | c :: ds => c == '#' && ds.all isHexChar && (ds.length == 3 || ds.length == 6)
  | [] => false

/-- Source `re.match(r'^#(?:[0-9a-fA-F]{3}){1,2}$', s)` (exctractv2.py:222) as a
    boolean; Python's `$` also matches just before one trailing newline. -/
def pyHexColorMatch (s : String) : Bool :=
  hexColorBody s.toList ||
    (s.toList.getLast? == some '\n' && hexColorBody s.toList.dropLast)

def hexBody3 : List Char → Bool
  | ['#', a, b, c] => isHexChar a && isHexChar b && isHexChar c
  | _ => false

def hexBody6 : List Char → Bool
  | ['#', a, b, c, d, e, f] =>
    isHexChar a && isHexChar b && isHexChar c && isHexChar d && isHexChar e && isHexChar f
  | _ => false

/-- The spec's pattern for extracted colors — `#` followed by exactly 3 or
    exactly 6 hex digits — written independently of the source's regex and
    read with the same `$`-before-trailing-newline convention. -/
def specHexColor (s : String) : Bool :=
  (hexBody3 s.toList || hexBody6 s.toList) ||
    (s.toList.getLast? == some '\n' && (hexBody3 s.toList.dropLast || hexBody6 s.toList.dropLast))

/-- Python `label.split('_')[-1]` (replacev2.py:123): text after the last
    underscore (the whole string when there is none). -/
def lastUnderscoreComp (s : String) : String :=
  String.mk ((s.toList.reverse.takeWhile (fun c => c != '_')).reverse)

/-- Python `name.split('_', 1)[-1]` (replacev2.py:133): text after the first
    underscore (the whole string when there is none). -/
def afterFirstUnderscore (s : String) : String :=
  match s.toList.dropWhile (fun c => c != '_') with
  | '_' :: rest => String.mk rest
  | _ => s

def hasUnderscore (s : String) : Bool := s.toList.any (fun c => c = '_')

/-! ### Extraction (`exctractv2.py`) -/

/-- Source `text_label_mapping` (exctractv2.py:37-44). -/
def textLabelMapping : List (String × List String) :=
  [("heading", ["title", "heading", "title_text"]),
   ("description", ["description", "description_text", "editor", "text"]),
   ("button", ["button_text", "text"]),
   ("testimonial", ["testimonial_name", "testimonial_job", "testimonial_content"]),
   ("tab", ["tab_title", "tab_content"]),
   ("list", ["list_title", "list_description"])]

/-- Source `color_variable_mapping` (exctractv2.py:46-52). -/
def colorVariableMapping : List (String × List String) :=
  [("background", ["_background_color", "background_color", "bg_color"]),
   ("text", ["color", "text_color", "title_color"]),
   ("hover", ["hover_color", "_hover_color", "hover_bg_color"]),
   ("border", ["border_color", "_border_color"]),
   ("overlay", ["overlay_color", "_overlay_color"])]

/-- Source `ElementorText` (exctractv2.py:9-16).  The identity fields coming from
    `element.get` are raw JSON values, since `get` can return any type. -/
structure ElementorText where
  page_name : String
  section_name : JVal
  element_type : JVal
  label : String
  content : String
  widget_id : JVal
deriving DecidableEq

/-- Source `ElementorColor` (exctractv2.py:18-25). -/
structure ElementorColor where
  page_name : String
  section_name : JVal
  element_type : JVal
  variable_name : String
  color_value : String
  widget_id : JVal
deriving DecidableEq

/-- One entry of `page_data['sections']` (exctractv2.py:158-163). -/
structure SectionEntry where
  name : JVal
  id : JVal
  type : JVal
deriving DecidableEq

/-- Source `element.get('settings', {})` followed by the `isinstance(settings, dict)`
    guard: the settings fields when they form a dict. -/
def settingsOf (fs : List (String × JVal)) : Option (List (String × JVal)) :=
  match getD fs "settings" (.obj []) with
  | .obj sf => some sf
  | _ => none

/-- Source `_extract_labeled_texts` (exctractv2.py:169-201): for each category and
    candidate key present in settings with a string value, keep the cleaned
    text when it is nonempty. -/
def extractLabeledTexts (pn : String) (sec et wid : JVal) (fs : List (String × JVal)) :
    List ElementorText :=
  match settingsOf fs with
  | none => []
  | some sf =>
    textLabelMapping.flatMap (fun cat =>
      cat.2.flatMap (fun k =>
        match lookupF sf k with
        | some (.str content) =>
          let c := cleanHtmlContent content
          if c != "" then [⟨pn, sec, et, cat.1 ++ "_" ++ k, c, wid⟩] else []
        | _ => []))

/-- Source `_extract_labeled_colors` (exctractv2.py:203-233): for each category and
    candidate key present in settings with a string value matching the hex
    pattern, emit one record. -/
def extractLabeledColors (pn : String) (sec et wid : JVal) (fs : List (String × JVal)) :
    List ElementorColor :=
  match settingsOf fs with
  | none => []
  | some sf =>
    colorVariableMapping.flatMap (fun cat =>
      cat.2.flatMap (fun k =>
        match lookupF sf k with
        | some (.str cv) =>
          if pyHexColorMatch cv then [⟨pn, sec, et, cat.1 ++ "_" ++ k, cv, wid⟩] else []
        | _ => []))

/-- The three per-page accumulators of `_extract_page_data`:
    texts, colors, sections. -/
abbrev PageAcc := List ElementorText × List ElementorColor × List SectionEntry

def accAppend (a b : PageAcc) : PageAcc := (a.1 ++ b.1, a.2.1 ++ b.2.1, a.2.2 ++ b.2.2)

/-- What `process_element` does at one dict node before recursing: derive the
    ids, update the section name, extract this node's texts and colors, and
    append the node's own section entry after the children's (the source
    appends it after the recursive call, exctractv2.py:157-163). -/
def nodeLocalAcc (pn : String) (fs : List (String × JVal)) (sec : JVal) : PageAcc × JVal :=
  let et := getD fs "elType" (.str "")
  let wt := getD fs "widgetType" (.str "")
  let eid := getD fs "id" (.str "")
  let sec' := updateSection fs sec
  ((extractLabeledTexts pn sec' (pyOr et wt) eid fs,
    extractLabeledColors pn sec' (pyOr et wt) eid fs,
    []),
   sec')

def nodeSectionEntry (fs : List (String × JVal)) (sec' : JVal) : List SectionEntry :=
  if getD fs "elType" (.str "") = .str "section" then
    [⟨sec', getD fs "id" (.str ""), getD fs "elType" (.str "")⟩]
  else []

mutual
/-- Source `process_element` (exctractv2.py:111-163).  Lists are visited element by
    element; dict nodes extract locally and then recurse through their
    `elements` child container. -/
def processElement (pn : String) : JVal → JVal → PageAcc
  | .arr xs, sec => processElementList pn xs sec
  | .obj fs, sec =>
    let l := nodeLocalAcc pn fs sec
    accAppend (accAppend l.1 (processDescend pn fs l.2)) ([], [], nodeSectionEntry fs l.2)
  | _, _ => ([], [], [])
/-- The `if 'elements' in element` descent (exctractv2.py:152-155): find the
    (unique) `elements` binding and recurse into it when it is a list or a
    dict.  The dict branch is definitionally `processElement` applied to the
    child dict — see `processDescend_obj_eq`. -/
def processDescend (pn : String) : List (String × JVal) → JVal → PageAcc
  | [], _ => ([], [], [])
  | (k, v) :: rest, sec =>
    if k = "elements" then
      match v with
      | .arr xs => processElementList pn xs sec
      | .obj cfs =>
        let l := nodeLocalAcc pn cfs sec
        accAppend (accAppend l.1 (processDescend pn cfs l.2)) ([], [], nodeSectionEntry cfs l.2)
      | _ => ([], [], [])
    else processDescend pn rest sec
def processElementList (pn : String) : List JVal → JVal → PageAcc
  | [], _ => ([], [], [])
  | x :: rest, sec => accAppend (processElement pn x sec) (processElementList pn rest sec)
end

/-- The dict branch of the descent is exactly `process_element` applied to the
    dict-typed child container, as in the source. -/
theorem processDescend_obj_eq (pn : String) (cfs : List (String × JVal)) (sec : JVal) :
    processDescend pn [("elements", JVal.obj cfs)] sec = processElement pn (.obj cfs) sec := by
  simp [processDescend, processElement]

/-- Source `page_data` (exctractv2.py:101-109). -/
structure PageData where
  title : String
  slug : String
  sections : List SectionEntry
  texts : List ElementorText
  colors : List ElementorColor

/-- Source `_extract_page_data` (exctractv2.py:101-167): run `process_element` from
    the root with the empty ambient section name. -/
def extractPageData (elementorData : JVal) (pageTitle pageSlug : String) : PageData :=
  let acc := processElement pageTitle elementorData (.str "")
  ⟨pageTitle, pageSlug, acc.2.2, acc.1, acc.2.1⟩

/-! ### Replacement (`replacev2.py`) -/

/-- One record of `page_data['transformed_texts']` as `replace_recursive`
    reads it (replacev2.py:118-125): subscript access requires these keys. -/
structure TransformedText where
  widget_id : JVal
  section_name : JVal
  label : String
  transformed_content : JVal
deriving DecidableEq

/-- One record of `page_data['transformed_colors']` (replacev2.py:128-135). -/
structure TransformedColor where
  widget_id : JVal
  section_name : JVal
  variable_name : String
  transformed_color : JVal
deriving DecidableEq

/-- One step of the text-replacement loop (replacev2.py:118-125): on a
    `(widget_id, section_name)` match, derive the settings key from the label
    (text after the last underscore) and overwrite it when present. -/
def applyText (eid sec : JVal) (sf : List (String × JVal)) (t : TransformedText) :
    List (String × JVal) :=
  if t.widget_id = eid ∧ t.section_name = sec then
    match lookupF sf (lastUnderscoreComp t.label) with
    | some _ => setF sf (lastUnderscoreComp t.label) t.transformed_content
    | none => sf
  else sf

def applyTexts (tts : List TransformedText) (eid sec : JVal) (sf : List (String × JVal)) :
    List (String × JVal) :=
  tts.foldl (applyText eid sec) sf

/-- One step of the color-replacement loop (replacev2.py:128-135): the key is
    the text after the first underscore of the variable name. -/
def applyColor (eid sec : JVal) (sf : List (String × JVal)) (t : TransformedColor) :
    List (String × JVal) :=
  if t.widget_id = eid ∧ t.section_name = sec then
    match lookupF sf (afterFirstUnderscore t.variable_name) with
    | some _ => setF sf (afterFirstUnderscore t.variable_name) t.transformed_color
    | none => sf
  else sf

def applyColors (tcs : List TransformedColor) (eid sec : JVal) (sf : List (String × JVal)) :
    List (String × JVal) :=
  tcs.foldl (applyColor eid sec) sf

mutual
/-- Source `replace_recursive` (replacev2.py:99-144) as a pure rewrite: dict nodes
    update the section name, rewrite their settings dict (texts first, then
    colors), and recurse through list-typed `elements`; list inputs are
    rewritten element by element. -/
def replaceRec (tts : List TransformedText) (tcs : List TransformedColor) :
    JVal → JVal → JVal
  | .obj fs, sec =>
    .obj (replaceFields tts tcs fs (updateSection fs sec) (getD fs "id" (.str "")))
  | .arr xs, sec => .arr (replaceRecList tts tcs xs sec)
  | v, _ => v
termination_by structural e _ => e
/-- The per-field action of `replace_recursive` on a dict node: a `settings`
    dict gets the text and color substitutions (replacev2.py:114-135); a
    list-typed `elements` container is recursed into element by element
    (replacev2.py:138-140) — `for child in element['elements']` over a dict
    iterates its string keys, and `replace_recursive` on a string is a
    no-op, so dict- and string-typed containers are left unchanged (a
    numeric container would raise `TypeError`, which no real export
    reaches); every other field is untouched. -/
def replaceFields (tts : List TransformedText) (tcs : List TransformedColor) :
    List (String × JVal) → JVal → JVal → List (String × JVal)
  | [], _, _ => []
  | (k, v) :: rest, sec, eid =>
    (k,
      if k = "settings" then
        match v with
        | .obj sf => .obj (applyColors tcs eid sec (applyTexts tts eid sec sf))
        | _ => v
      else if k = "elements" then
        match v with
        | .arr xs => .arr (replaceRecList tts tcs xs sec)
        | _ => v
      else v) :: replaceFields tts tcs rest sec eid
def replaceRecList (tts : List TransformedText) (tcs : List TransformedColor) :
    List JVal → JVal → List JVal
  | [], _ => []
  | x :: rest, sec => replaceRec tts tcs x sec :: replaceRecList tts tcs rest sec
end

/-- Source `_replace_elementor_content` (replacev2.py:93-156).  The source deep-copies
    its input first (line 147), so the original tree is never mutated — here
    that is the purity of the function; its top-level list branch
    (lines 150-154) coincides with `replaceRec`'s list case. -/
def replaceElementorContent (elementorData : JVal) (tts : List TransformedText)
    (tcs : List TransformedColor) : JVal :=
  replaceRec tts tcs elementorData (.str "")

/-! ### The two traversals' visit sequences (for C3)

`visitsExtract` records, in order, every dict node `process_element` reaches
together with the section name assigned to it; `visitsReplace` does the same
for `replace_recursive`.  Both mirror the corresponding recursions above
node for node. -/

mutual
def visitsExtract : JVal → JVal → List (List (String × JVal) × JVal)
  | .obj fs, sec => (fs, updateSection fs sec) :: visitsExtractDescend fs (updateSection fs sec)
  | .arr xs, sec => visitsExtractList xs sec
  | _, _ => []
def visitsExtractDescend : List (String × JVal) → JVal → List (List (String × JVal) × JVal)
  | [], _ => []
  | (k, v) :: rest, sec =>
    if k = "elements" then
      match v with
      | .arr xs => visitsExtractList xs sec
      | .obj cfs =>
        (cfs, updateSection cfs sec) :: visitsExtractDescend cfs (updateSection cfs sec)
      | _ => []
    else visitsExtractDescend rest sec
def visitsExtractList : List JVal → JVal → List (List (String × JVal) × JVal)
  | [], _ => []
  | x :: rest, sec => visitsExtract x sec ++ visitsExtractList rest sec
end

/-- The dict branch of the extraction descent is exactly `visitsExtract` on
    the child dict, as in the source. -/
theorem visitsExtractDescend_obj_eq (cfs : List (String × JVal)) (sec : JVal) :
    visitsExtractDescend [("elements", JVal.obj cfs)] sec = visitsExtract (.obj cfs) sec := by
  simp [visitsExtractDescend, visitsExtract]

mutual
def visitsReplace : JVal → JVal → List (List (String × JVal) × JVal)
  | .obj fs, sec => (fs, updateSection fs sec) :: visitsReplaceDescend fs (updateSection fs sec)
  | .arr xs, sec => visitsReplaceList xs sec
  | _, _ => []
/-- Iterating `for child in element['elements']` visits nothing for a dict-typed
    container (its keys are strings) or a string. -/
def visitsReplaceDescend : List (String × JVal) → JVal → List (List (String × JVal) × JVal)
  | [], _ => []
  | (k, v) :: rest, sec =>
    if k = "elements" then
      match v with
      | .arr xs => visitsReplaceList xs sec
      | _ => []
    else visitsReplaceDescend rest sec
def visitsReplaceList : List JVal → JVal → List (List (String × JVal) × JVal)
  | [], _ => []
  | x :: rest, sec => visitsReplace x sec ++ visitsReplaceList rest sec
end

/-! ### Shape preservation (for C10) -/

mutual
/-- Structural agreement up to settings values: both trees have the same
    constructors, array lengths, object keys in the same order, and equal
    values everywhere except inside a `settings` dict, where only the key
    list (in order) must agree. -/
def sameShape : JVal → JVal → Bool
  | .obj fs, .obj gs => sameShapeFields fs gs
  | .arr xs, .arr ys => sameShapeList xs ys
  | a, b => jvalBeq a b
def sameShapeFields : List (String × JVal) → List (String × JVal) → Bool
  | [], [] => true
  | (k, v) :: fs, (l, w) :: gs =>
    k == l &&
      (if k = "settings" then
        match v, w with
        | .obj sv, .obj sw => keysOf sv == keysOf sw
        | _, _ => jvalBeq v w
      else sameShape v w) &&
      sameShapeFields fs gs
  | _, _ => false
def sameShapeList : List JVal → List JVal → Bool
  | [], [] => true
  | x :: xs, y :: ys => sameShape x y && sameShapeList xs ys
  | _, _ => false
end

/-! ### Transformation (`transformv2.py`) -/

/-- Source `re.split(r'ORIGINAL:', s)` (transformv2.py:251): split on the
    literal marker (the pattern has no metacharacters). -/
def splitOnORIGINAL : List Char → List Char → List (List Char)
  | 'O' :: 'R' :: 'I' :: 'G' :: 'I' :: 'N' :: 'A' :: 'L' :: ':' :: rest, acc =>
    acc.reverse :: splitOnORIGINAL rest []
  | c :: rest, acc => splitOnORIGINAL rest (c :: acc)
  | [], acc => [acc.reverse]

/-- Source `trans.split('NEW:', 1)` (transformv2.py:254): cut at the first
    marker; `none` when absent (Python then returns a one-element list, which
    the `len(parts) == 2` guard discards). -/
def splitNEWOnce : List Char → List Char → Option (List Char × List Char)
  | 'N' :: 'E' :: 'W' :: ':' :: rest, acc => some (acc.reverse, rest)
  | c :: rest, acc => splitNEWOnce rest (c :: acc)
  | [], _ => none

/-- Source `re.sub(r'ORIGINAL:.*', '', t)` (transformv2.py:260): delete from
    each `ORIGINAL:` marker to the end of its line (`.*` stops at a newline);
    the flag records whether we are inside a deleted span. -/
def rmOrigGo : List Char → Bool → List Char
  | [], _ => []
  | c :: rest, true => if c = '\n' then '\n' :: rmOrigGo rest false else rmOrigGo rest true
  | 'O' :: 'R' :: 'I' :: 'G' :: 'I' :: 'N' :: 'A' :: 'L' :: ':' :: rest, false =>
    rmOrigGo rest true
  | c :: rest, false => c :: rmOrigGo rest false

/-- The remainder after a leading `===`, when there is one. -/
def eqEqEqSplit : List Char → Option (List Char)
  | '=' :: '=' :: '=' :: r => some r
  | _ => none

theorem eqEqEqSplit_len (cs r : List Char) (h : eqEqEqSplit cs = some r) :
    cs.length = r.length + 3 := by
  rw [eqEqEqSplit.eq_def] at h
  split at h
  · simp at h
    subst h
    simp
  · simp at h

/-- The suffix after the last `===` occurrence in the input, scanning every
    start position (the greedy tail of `===.*===`). -/
def afterLastEq : List Char → Option (List Char)
  | [] => none
  | c :: rest =>
    match afterLastEq rest, eqEqEqSplit (c :: rest) with
    | some r, _ => some r
    | none, some r2 => some r2
    | none, none => none

theorem afterLastEq_len : ∀ cs r, afterLastEq cs = some r → r.length + 3 ≤ cs.length
  | [], r => by simp [afterLastEq]
  | c :: rest, r => by
    simp only [afterLastEq]
    cases h : afterLastEq rest with
    | some r3 =>
      intro he
      simp at he
      have := afterLastEq_len rest r3 h
      have hl : r3.length = r.length := by rw [he]
      simp
      omega
    | none =>
      cases h2 : eqEqEqSplit (c :: rest) with
      | some r2 =>
        intro he
        simp at he
        have := eqEqEqSplit_len (c :: rest) r2 h2
        have hl : r2.length = r.length := by rw [he]
        simp at this ⊢
        omega
      | none => intro he; simp at he

/-- One line of `re.sub(r'===.*===', '', t)` (transformv2.py:261): a match
    runs from the first `===` to the end of the last `===` of the line (`.*`
    is greedy); when the first `===` has no later closing `===`, no start
    position on the line can match; scanning resumes after each match.  The
    fuel argument only bounds the number of steps: every step consumes at
    least one character (`afterLastEq_len`), so `lineRmEq` below never runs
    out when started with the line's length. -/
def lineRmEqF : Nat → List Char → List Char
  | 0, cs => cs
  | _ + 1, [] => []
  | fuel + 1, '=' :: '=' :: '=' :: rest =>
    (match afterLastEq rest with
     | some r => lineRmEqF fuel r
     | none => '=' :: '=' :: '=' :: rest)
  | fuel + 1, c :: rest => c :: lineRmEqF fuel rest

def lineRmEq (cs : List Char) : List Char := lineRmEqF cs.length cs

def splitNlGo : List Char → List Char → List (List Char)
  | '\n' :: rest, acc => acc.reverse :: splitNlGo rest []
  | c :: rest, acc => splitNlGo rest (c :: acc)
  | [], acc => [acc.reverse]

def joinNl : List (List Char) → List Char
  | [] => []
  | [l] => l
  | l :: rest => l ++ '\n' :: joinNl rest

/-- Source `re.sub(r'===.*===', '', t)` (transformv2.py:261): a match cannot
    cross a newline, so each line is processed independently. -/
def rmEqEq (cs : List Char) : List Char := joinNl ((splitNlGo cs []).map lineRmEq)

/-- Source `_parse_text_transformations` (transformv2.py:246-280): split the
    response on `ORIGINAL:` and drop the leading chunk, pair each remaining
    chunk's `ORIGINAL`/`NEW` parts (a chunk without `NEW:` is discarded),
    clean the transformed text, and pad with identity records — `original`
    and `transformed` both the input record itself — when fewer
    transformations than originals were parsed. -/
def parseTextTransformations (resp : String) (originals : List JVal) : List JVal :=
  let chunks := (splitOnORIGINAL resp.toList []).drop 1
  let parsed := chunks.filterMap (fun ch =>
    match splitNEWOnce ch [] with
    | some p =>
      let original := String.mk (stripChars p.1)
      let t1 := stripChars p.2
      let t2 := stripChars (rmOrigGo t1 false)
      let t3 := stripChars (rmEqEq t2)
      some (JVal.obj [("original", .str original), ("transformed", .str (String.mk t3))])
    | none => none)
  parsed ++ (originals.drop parsed.length).map (fun t => .obj [("original", t), ("transformed", t)])

/-- Source `_generate_fallback_content` (transformv2.py:160-172): identity
    records, one per input, with `original` and `transformed` both the full
    input record (the surrounding dict's `transformation_notes` is not
    consumed downstream and is not modelled). -/
def generateFallbackContent (texts : List JVal) : List JVal :=
  texts.map (fun t => JVal.obj [("original", t), ("transformed", t)])

/-- The `batch_size = 5` slicing of `transform_content`
    (transformv2.py:28-31): `extracted_content['texts'][i:i + 5]` for
    `i = 0, 5, 10, …`. -/
def batchesOf5 : List JVal → List (List JVal)
  | [] => []
  | [a] => [[a]]
  | [a, b] => [[a, b]]
  | [a, b, c] => [[a, b, c]]
  | [a, b, c, d] => [[a, b, c, d]]
  | a :: b :: c :: d :: e :: rest => [a, b, c, d, e] :: batchesOf5 rest

/-- Source `_generate_transformed_content` (transformv2.py:114-158): one LLM
    request per batch — `llm` abstracts `openai.chat.completions.create` with
    the colors and style description fixed for the job — and any exception
    from the call degrades to the identity fallback for that batch alone. -/
def generateTransformedContent (llm : List JVal → Except String String)
    (batch : List JVal) : List JVal :=
  match llm batch with
  | .ok resp => parseTextTransformations resp batch
  | .error _ => generateFallbackContent batch

/-- The text-batch loop of `transform_content` (transformv2.py:29-37): process
    the batches in order and concatenate their records (`extend`); the loop
    itself raises nothing — per-batch failures were already degraded to the
    identity fallback inside `_generate_transformed_content`. -/
def transformTextsLoop (llm : List JVal → Except String String) (texts : List JVal) :
    List JVal :=
  (batchesOf5 texts).flatMap (generateTransformedContent llm)

/-- Greedy hex-digit run of length at most `n`, with the rest of the input. -/
def takeHex : List Char → Nat → List Char × List Char
  | cs, 0 => ([], cs)
  | [], _ + 1 => ([], [])
  | c :: rest, n + 1 =>
    if isHexChar c then
      let p := takeHex rest n
      (c :: p.1, p.2)
    else ([], c :: rest)

theorem takeHex_len : ∀ (cs : List Char) (n : Nat), (takeHex cs n).2.length ≤ cs.length
  | cs, 0 => by simp [takeHex]
  | [], n + 1 => by simp [takeHex]
  | c :: rest, n + 1 => by
    by_cases h : isHexChar c
    · simp only [takeHex, h, if_true]
      exact Nat.le_succ_of_le (takeHex_len rest n)
    · simp [takeHex, h]

/-- Source `re.findall(r'#[0-9a-fA-F]{3,6}', s)` (transformv2.py:215): scan
    left to right; at each `#` greedily take up to six hex digits, keep the
    token when there are at least three, and resume after it.  Fuel only
    bounds the step count: every step strictly shortens the input
    (`takeHex_len`), so starting with the input's length never runs out. -/
def findHexColorsF : Nat → List Char → List (List Char)
  | 0, _ => []
  | _ + 1, [] => []
  | fuel + 1, '#' :: rest =>
    if 3 ≤ (takeHex rest 6).1.length then
      ('#' :: (takeHex rest 6).1) :: findHexColorsF fuel (takeHex rest 6).2
    else findHexColorsF fuel rest
  | fuel + 1, _ :: rest => findHexColorsF fuel rest

def findHexColors (cs : List Char) : List (List Char) := findHexColorsF cs.length cs

/-- The text after the first `NEW COLORS:` marker, if any
    (`re.search(r'NEW COLORS:(.+?)(?===|$)', ·, re.DOTALL)`,
    transformv2.py:211). -/
def afterNEWCOLORS : List Char → Option (List Char)
  | 'N' :: 'E' :: 'W' :: ' ' :: 'C' :: 'O' :: 'L' :: 'O' :: 'R' :: 'S' :: ':' :: rest =>
    some rest
  | _ :: rest => afterNEWCOLORS rest
  | [] => none

/-- The prefix before the first `==` occurrence (the lazy capture's stop),
    with the first capture character already consumed by the caller. -/
def beforeEqEq : List Char → List Char → Option (List Char)
  | '=' :: '=' :: _, acc => some acc.reverse
  | c :: rest, acc => beforeEqEq rest (c :: acc)
  | [], _ => none

/-- The lazy group `(.+?)(?===|$)` applied to the text after the marker: at
    least one character, stopping at the first later `==`, otherwise at the
    end of the string — where `$` also accepts the position just before one
    trailing newline, which is then left out of the capture. -/
def newColorsCapture : List Char → Option (List Char)
  | [] => none
  | c :: rest =>
    match beforeEqEq rest [c] with
    | some pre => some pre
    | none =>
      if rest ≠ [] ∧ (c :: rest).getLast? = some '\n' then some ((c :: rest).dropLast)
      else some (c :: rest)

/-- The padding loop of `_generate_color_palette` (transformv2.py:224-226):
    while short of the requested length, append
    `new_colors[len(new_colors) % len(new_colors)]` — index `0`, that is the
    first returned color — or `"#000000"` when nothing was parsed at all.
    Fuel only bounds the iteration count: each pass grows the list by one, so
    starting with the requested length never runs out. -/
def padColorsLoopF : Nat → Nat → List String → List String
  | 0, _, acc => acc
  | fuel + 1, n, acc =>
    if acc.length < n then
      padColorsLoopF fuel n (acc ++ [match acc with | [] => "#000000" | c :: _ => c])
    else acc

def padColorsLoop (n : Nat) (acc : List String) : List String := padColorsLoopF n n acc

/-- The parsing-and-padding core of `_generate_color_palette`
    (transformv2.py:207-234), returning the final `new_colors` value — pad,
    then trim to the input length.  `currents` is `extracted_content['colors']`
    (a list of record dicts); the notes extraction does not influence the
    color list and is not modelled. -/
def parsedPaletteColors (respText : String) : List String :=
  match afterNEWCOLORS respText.toList with
  | some tail =>
    match newColorsCapture tail with
    | some cap => (findHexColors cap).map String.mk
    | none => []
  | none => []

def generateColorPaletteColors (respText : String) (currents : List JVal) : List String :=
  (padColorsLoop currents.length (parsedPaletteColors respText)).take currents.length

/-- The padding policy claim C7 describes, following the spec's words: pad by
    cycling through the already-returned colors in order, with `#000000` only
    when none were returned. -/
def cyclePadColors (n : Nat) (parsed : List String) : List String :=
  if parsed.isEmpty then List.replicate n "#000000"
  else (List.range n).map (fun i => parsed.getD (i % parsed.length) "#000000")

/-! ### White protection (spec §4.5)

The protected-value override is not present in `src/replacev2.py`; `app.py`
imports `replace_text_and_colors`, a replacer variant the source tree does
not contain, so the policy is modelled from the spec's words on top of the
source-derived blanket substitution. -/

/-- Modelled from the spec: the background-type settings keys of the
    protected-value override that is missing from `src/replacev2.py`, as
    designated by the extractor's `background` color category. -/
def backgroundColorKeys : List String := ["_background_color", "background_color", "bg_color"]

/-- Lower-case an ASCII letter (for comparing hex-color spellings). -/
def lowerChar (c : Char) : Char :=
  if 'A' ≤ c && c ≤ 'Z' then Char.ofNat (c.toNat + 32) else c

/-- Modelled from the spec: "pure white in any of its accepted string
    spellings" — `#fff` or `#ffffff` in any letter case. -/
def isPureWhite : JVal → Bool
  | .str s =>
    let t := String.mk (s.toList.map lowerChar)
    t == "#ffffff" || t == "#fff"
  | _ => false

/-- Modelled from the spec: restore into the substituted settings dict the
    snapshot of every background-type entry whose value before substitution
    was pure white. -/
def restoreSettings (origSf : List (String × JVal)) :
    List (String × JVal) → List (String × JVal)
  | [] => []
  | (k, v) :: rest =>
    (if k ∈ backgroundColorKeys then
      match lookupF origSf k with
      | some w => if isPureWhite w then (k, w) else (k, v)
      | none => (k, v)
    else (k, v)) :: restoreSettings origSf rest

mutual
/-- Modelled from the spec (§4.5): after blanket substitution, walk the
    original and the substituted tree in parallel and restore the protected
    snapshots; positions whose structure diverged are left substituted. -/
def restoreWhites : JVal → JVal → JVal
  | .obj fs, .obj gs => .obj (restoreWhitesFields fs gs)
  | .arr xs, .arr ys => .arr (restoreWhitesList xs ys)
  | _, r => r
def restoreWhitesFields : List (String × JVal) → List (String × JVal) →
    List (String × JVal)
  | (k, v) :: fs, (l, w) :: gs =>
    (l, if k = "settings" then
          match v, w with
          | .obj sv, .obj sw => .obj (restoreSettings sv sw)
          | _, _ => w
        else restoreWhites v w) :: restoreWhitesFields fs gs
  | _, gs => gs
def restoreWhitesList : List JVal → List JVal → List JVal
  | x :: xs, y :: ys => restoreWhites x y :: restoreWhitesList xs ys
  | _, ys => ys
end

/-- Modelled from the spec: the replacer with the white-protection policy
    enabled — the source-derived blanket substitution, then restoration of
    the white-background snapshots. -/
def replaceWithWhiteProtection (elementorData : JVal) (tts : List TransformedText)
    (tcs : List TransformedColor) : JVal :=
  restoreWhites elementorData (replaceElementorContent elementorData tts tcs)

/-- Checks one settings dict: every background-type key whose value in the
    original settings is pure white has that exact value in the output
    settings. -/
def whiteSettingsOk (sv sw : List (String × JVal)) : Bool :=
  backgroundColorKeys.all (fun k =>
    match lookupF sv k with
    | some w => !isPureWhite w || (lookupF sw k == some w)
    | none => true)

mutual
/-- Claim C4's property: walking the input and the output in parallel, every
    settings value that is pure white under a background-type key in the
    input is unchanged in the output (a structural divergence on the way to
    a settings dict fails the check). -/
def whitePreserved : JVal → JVal → Bool
  | .obj fs, .obj gs => whitePreservedFields fs gs
  | .arr xs, .arr ys => whitePreservedList xs ys
  | .obj _, _ => false
  | .arr _, _ => false
  | _, _ => true
def whitePreservedFields : List (String × JVal) → List (String × JVal) → Bool
  | [], [] => true
  | (k, v) :: fs, (l, w) :: gs =>
    decide (k = l) &&
      (if k = "settings" then
        match v, w with
        | .obj sv, .obj sw => whiteSettingsOk sv sw
        | _, _ => true
      else whitePreserved v w) &&
      whitePreservedFields fs gs
  | _, _ => false
def whitePreservedList : List JVal → List JVal → Bool
  | [], [] => true
  | x :: xs, y :: ys => whitePreserved x y && whitePreservedList xs ys
  | _, _ => false
end

/-! ### Association-list lemmas -/

theorem lookupF_setF_self : ∀ (sf : List (String × JVal)) (k : String) (w : JVal),
    lookupF sf k = some w → setF sf k w = sf
  | [], k, w => by simp [lookupF]
  | (l, v) :: fs, k, w => by
    simp only [lookupF, setF]
    by_cases h : l = k
    · simp only [h, if_true]
      intro he
      simp at he
      rw [he]
    · simp only [h, if_false]
      intro he
      rw [lookupF_setF_self fs k w he]

theorem keysOf_setF : ∀ (sf : List (String × JVal)) (k : String) (w : JVal),
    keysOf (setF sf k w) = keysOf sf
  | [], _, _ => rfl
  | (l, v) :: fs, k, w => by
    simp only [setF]
    by_cases h : l = k
    · simp [h, keysOf]
    · simp only [h, if_false, keysOf, List.map_cons, List.cons.injEq, true_and]
      exact keysOf_setF fs k w

theorem mem_keysOf_lookupF : ∀ (sf : List (String × JVal)) (k : String),
    k ∈ keysOf sf → ∃ u, lookupF sf k = some u
  | [], k => by simp [keysOf]
  | (l, v) :: fs, k => by
    simp only [keysOf, List.map_cons, List.mem_cons, lookupF]
    intro h
    by_cases he : l = k
    · exact ⟨v, by simp [he]⟩
    · simp only [he, if_false]
      cases h with
      | inl h => exact absurd h.symm he
      | inr h => exact mem_keysOf_lookupF fs k h

theorem keysOf_applyText (eid sec : JVal) (sf : List (String × JVal)) (t : TransformedText) :
    keysOf (applyText eid sec sf t) = keysOf sf := by
  unfold applyText
  by_cases h : t.widget_id = eid ∧ t.section_name = sec
  · simp only [h, if_true]
    cases hl : lookupF sf (lastUnderscoreComp t.label) with
    | some u => exact keysOf_setF sf _ _
    | none => rfl
  · simp [h]

theorem keysOf_applyTexts (tts : List TransformedText) (eid sec : JVal) :
    ∀ sf, keysOf (applyTexts tts eid sec sf) = keysOf sf := by
  induction tts with
  | nil => intro sf; rfl
  | cons t ts ih =>
    intro sf
    show keysOf (applyTexts ts eid sec (applyText eid sec sf t)) = keysOf sf
    rw [ih, keysOf_applyText]

theorem keysOf_applyColor (eid sec : JVal) (sf : List (String × JVal)) (t : TransformedColor) :
    keysOf (applyColor eid sec sf t) = keysOf sf := by
  unfold applyColor
  by_cases h : t.widget_id = eid ∧ t.section_name = sec
  · simp only [h, if_true]
    cases hl : lookupF sf (afterFirstUnderscore t.variable_name) with
    | some u => exact keysOf_setF sf _ _
    | none => rfl
  · simp [h]

theorem keysOf_applyColors (tcs : List TransformedColor) (eid sec : JVal) :
    ∀ sf, keysOf (applyColors tcs eid sec sf) = keysOf sf := by
  induction tcs with
  | nil => intro sf; rfl
  | cons t ts ih =>
    intro sf
    show keysOf (applyColors ts eid sec (applyColor eid sec sf t)) = keysOf sf
    rw [ih, keysOf_applyColor]

/-! ### Structure preservation of the replacer -/

mutual
theorem sameShape_refl : ∀ v, sameShape v v = true
  | .str s => by simp [sameShape, jvalBeq]
  | .num n => by simp [sameShape, jvalBeq]
  | .bool b => by simp [sameShape, jvalBeq]
  | .null => by simp [sameShape, jvalBeq]
  | .arr xs => by
    simp only [sameShape]
    exact sameShapeList_refl xs
  | .obj fs => by
    simp only [sameShape]
    exact sameShapeFields_refl fs
theorem sameShapeFields_refl : ∀ fs, sameShapeFields fs fs = true
  | [] => rfl
  | (k, v) :: fs => by
    simp only [sameShapeFields, Bool.and_eq_true, beq_self_eq_true, true_and]
    refine ⟨?_, sameShapeFields_refl fs⟩
    by_cases h : k = "settings"
    · simp only [h, if_true]
      cases v <;> simp [jvalBeq_iff, jlistBeq_iff, jfieldsBeq_iff]
    · simp only [h, if_false]
      exact sameShape_refl v
theorem sameShapeList_refl : ∀ xs, sameShapeList xs xs = true
  | [] => rfl
  | x :: xs => by
    simp only [sameShapeList, Bool.and_eq_true]
    exact ⟨sameShape_refl x, sameShapeList_refl xs⟩
end

theorem sameShapeList_helper (tts : List TransformedText) (tcs : List TransformedColor) :
    ∀ xs sec, (∀ x ∈ xs, ∀ s2, sameShape x (replaceRec tts tcs x s2) = true) →
      sameShapeList xs (replaceRecList tts tcs xs sec) = true := by
  intro xs
  induction xs with
  | nil => intro sec h; rfl
  | cons x rest ihr =>
    intro sec h
    simp only [replaceRecList, sameShapeList, Bool.and_eq_true]
    exact ⟨h x (by simp) sec, ihr sec (fun y hy s2 => h y (by simp [hy]) s2)⟩

theorem sameShapeFields_helper (tts : List TransformedText) (tcs : List TransformedColor) :
    ∀ fs sec eid, (∀ kv ∈ fs, ∀ s2, sameShape kv.2 (replaceRec tts tcs kv.2 s2) = true) →
      sameShapeFields fs (replaceFields tts tcs fs sec eid) = true := by
  intro fs
  induction fs with
  | nil => intro sec eid h; rfl
  | cons kv rest ihr =>
    intro sec eid h
    obtain ⟨k, v⟩ := kv
    have hv : ∀ s2, sameShape v (replaceRec tts tcs v s2) = true :=
      fun s2 => h (k, v) (by simp) s2
    have tail := ihr sec eid (fun p hp s2 => h p (by simp [hp]) s2)
    clear h ihr
    by_cases hs : k = "settings"
    · cases v with
      | obj sv =>
        have hstep : replaceFields tts tcs ((k, .obj sv) :: rest) sec eid =
            (k, JVal.obj (applyColors tcs eid sec (applyTexts tts eid sec sv))) ::
              replaceFields tts tcs rest sec eid := by
          simp [replaceFields, hs]
        rw [hstep]
        simp [sameShapeFields, hs, tail, keysOf_applyColors, keysOf_applyTexts]
      | str t =>
        have hstep : replaceFields tts tcs ((k, .str t) :: rest) sec eid =
            (k, JVal.str t) :: replaceFields tts tcs rest sec eid := by
          simp [replaceFields, hs]
        rw [hstep]
        simp [sameShapeFields, hs, jvalBeq, tail]
      | num n =>
        have hstep : replaceFields tts tcs ((k, .num n) :: rest) sec eid =
            (k, JVal.num n) :: replaceFields tts tcs rest sec eid := by
          simp [replaceFields, hs]
        rw [hstep]
        simp [sameShapeFields, hs, jvalBeq, tail]
      | bool b =>
        have hstep : replaceFields tts tcs ((k, .bool b) :: rest) sec eid =
            (k, JVal.bool b) :: replaceFields tts tcs rest sec eid := by
          simp [replaceFields, hs]
        rw [hstep]
        simp [sameShapeFields, hs, jvalBeq, tail]
      | null =>
        have hstep : replaceFields tts tcs ((k, .null) :: rest) sec eid =
            (k, JVal.null) :: replaceFields tts tcs rest sec eid := by
          simp [replaceFields, hs]
        rw [hstep]
        simp [sameShapeFields, hs, jvalBeq, tail]
      | arr xs =>
        have hstep : replaceFields tts tcs ((k, .arr xs) :: rest) sec eid =
            (k, JVal.arr xs) :: replaceFields tts tcs rest sec eid := by
          simp [replaceFields, hs]
        rw [hstep]
        simp [sameShapeFields, hs, jvalBeq, jlistBeq_iff, tail]
    · by_cases he : k = "elements"
      · cases v with
        | arr xs =>
          have harr := hv sec
          simp only [replaceRec, sameShape] at harr
          have hstep : replaceFields tts tcs ((k, .arr xs) :: rest) sec eid =
              (k, JVal.arr (replaceRecList tts tcs xs sec)) ::
                replaceFields tts tcs rest sec eid := by
            simp [replaceFields, hs, he]
          rw [hstep]
          simp [sameShapeFields, hs, sameShape, tail, harr]
        | obj gs =>
          have hstep : replaceFields tts tcs ((k, .obj gs) :: rest) sec eid =
              (k, JVal.obj gs) :: replaceFields tts tcs rest sec eid := by
            simp [replaceFields, hs, he]
          rw [hstep]
          simp [sameShapeFields, hs, tail, sameShape_refl]
        | str t =>
          have hstep : replaceFields tts tcs ((k, .str t) :: rest) sec eid =
              (k, JVal.str t) :: replaceFields tts tcs rest sec eid := by
            simp [replaceFields, hs, he]
          rw [hstep]
          simp [sameShapeFields, hs, sameShape, jvalBeq, tail]
        | num n =>
          have hstep : replaceFields tts tcs ((k, .num n) :: rest) sec eid =
              (k, JVal.num n) :: replaceFields tts tcs rest sec eid := by
            simp [replaceFields, hs, he]
          rw [hstep]
          simp [sameShapeFields, hs, sameShape, jvalBeq, tail]
        | bool b =>
          have hstep : replaceFields tts tcs ((k, .bool b) :: rest) sec eid =
              (k, JVal.bool b) :: replaceFields tts tcs rest sec eid := by
            simp [replaceFields, hs, he]
          rw [hstep]
          simp [sameShapeFields, hs, sameShape, jvalBeq, tail]
        | null =>
          have hstep : replaceFields tts tcs ((k, .null) :: rest) sec eid =
              (k, JVal.null) :: replaceFields tts tcs rest sec eid := by
            simp [replaceFields, hs, he]
          rw [hstep]
          simp [sameShapeFields, hs, sameShape, jvalBeq, tail]
      · have hstep : replaceFields tts tcs ((k, v) :: rest) sec eid =
            (k, v) :: replaceFields tts tcs rest sec eid := by
          cases v <;> simp [replaceFields, hs, he]
        rw [hstep]
        cases v <;>
          simp [sameShapeFields, hs, sameShape, jvalBeq, tail, sameShapeList_refl,
            sameShapeFields_refl]

theorem sameShape_replaceRec (tts : List TransformedText) (tcs : List TransformedColor)
    (e : JVal) : ∀ sec, sameShape e (replaceRec tts tcs e sec) = true := by
  induction e using JVal.myInd with
  | h1 s => intro sec; simp [replaceRec, sameShape, jvalBeq]
  | h2 n => intro sec; simp [replaceRec, sameShape, jvalBeq]
  | h3 b => intro sec; simp [replaceRec, sameShape, jvalBeq]
  | h4 => intro sec; simp [replaceRec, sameShape, jvalBeq]
  | h5 xs ih =>
    intro sec
    simp only [replaceRec, sameShape]
    exact sameShapeList_helper tts tcs xs sec (fun x hx s2 => ih x hx s2)
  | h6 fs ih =>
    intro sec
    simp only [replaceRec, sameShape]
    exact sameShapeFields_helper tts tcs fs _ _ (fun kv hkv s2 => ih kv hkv s2)

/-! ### White-protection lemmas -/

theorem lookupF_some_mem_keys : ∀ (sf : List (String × JVal)) (k : String) (u : JVal),
    lookupF sf k = some u → k ∈ keysOf sf
  | [], k, u => by simp [lookupF]
  | (l, v) :: fs, k, u => by
    simp only [lookupF, keysOf, List.map_cons, List.mem_cons]
    by_cases h : l = k
    · intro _
      exact Or.inl h.symm
    · simp only [h, if_false]
      intro hl
      exact Or.inr (lookupF_some_mem_keys fs k u hl)

theorem lookupF_restoreSettings : ∀ (sw sv : List (String × JVal)) (k : String) (w : JVal),
    k ∈ backgroundColorKeys → lookupF sv k = some w → isPureWhite w = true →
    k ∈ keysOf sw → lookupF (restoreSettings sv sw) k = some w
  | [], sv, k, w => by simp [keysOf]
  | (l, u) :: gs, sv, k, w => by
    intro hbg hsv hw hmem
    simp only [restoreSettings]
    by_cases h : l = k
    · subst h
      rw [if_pos hbg, hsv]
      show lookupF ((if isPureWhite w = true then (l, w) else (l, u)) ::
        restoreSettings sv gs) l = some w
      rw [if_pos hw]
      simp [lookupF]
    · have hmem2 : k ∈ keysOf gs := by
        simp only [keysOf, List.map_cons, List.mem_cons] at hmem
        cases hmem with
        | inl hx => exact absurd hx.symm h
        | inr hx => exact hx
      have tail := lookupF_restoreSettings gs sv k w hbg hsv hw hmem2
      by_cases hb : l ∈ backgroundColorKeys
      · rw [if_pos hb]
        cases hl : lookupF sv l with
        | none => simp only [lookupF, h, if_false]; exact tail
        | some w2 =>
          show lookupF ((if isPureWhite w2 = true then (l, w2) else (l, u)) ::
            restoreSettings sv gs) k = some w
          by_cases hw2 : isPureWhite w2 = true
          · rw [if_pos hw2]
            simp only [lookupF, h, if_false]
            exact tail
          · rw [if_neg hw2]
            simp only [lookupF, h, if_false]
            exact tail
      · rw [if_neg hb]
        simp only [lookupF, h, if_false]
        exact tail

theorem whiteSettingsOk_restore (sv sw : List (String × JVal))
    (hk : keysOf sv = keysOf sw) : whiteSettingsOk sv (restoreSettings sv sw) = true := by
  simp only [whiteSettingsOk, List.all_eq_true]
  intro k hbg
  cases hl : lookupF sv k with
  | none => simp
  | some w =>
    by_cases hw : isPureWhite w
    · have hmem : k ∈ keysOf sw := hk ▸ lookupF_some_mem_keys sv k w hl
      simp [lookupF_restoreSettings sw sv k w hbg hl hw hmem]
    · simp [hw]

theorem whitePreservedList_helper :
    ∀ xs ys, sameShapeList xs ys = true →
      (∀ x ∈ xs, ∀ y, sameShape x y = true → whitePreserved x (restoreWhites x y) = true) →
      whitePreservedList xs (restoreWhitesList xs ys) = true := by
  intro xs
  induction xs with
  | nil =>
    intro ys h _
    cases ys with
    | nil => rfl
    | cons y ys => simp [sameShapeList] at h
  | cons x rest ih =>
    intro ys h hp
    cases ys with
    | nil => simp [sameShapeList] at h
    | cons y ys =>
      simp only [sameShapeList, Bool.and_eq_true] at h
      simp only [restoreWhitesList, whitePreservedList, Bool.and_eq_true]
      exact ⟨hp x (by simp) y h.1,
        ih ys h.2 (fun z hz w hw => hp z (by simp [hz]) w hw)⟩

theorem whitePreservedFields_helper :
    ∀ fs gs, sameShapeFields fs gs = true →
      (∀ kv ∈ fs, ∀ w, sameShape kv.2 w = true →
        whitePreserved kv.2 (restoreWhites kv.2 w) = true) →
      whitePreservedFields fs (restoreWhitesFields fs gs) = true := by
  intro fs
  induction fs with
  | nil =>
    intro gs h _
    cases gs with
    | nil => rfl
    | cons g gs => simp [sameShapeFields] at h
  | cons kv rest ih =>
    intro gs h hp
    cases gs with
    | nil =>
      obtain ⟨k, v⟩ := kv
      simp [sameShapeFields] at h
    | cons lw gs =>
      obtain ⟨k, v⟩ := kv
      obtain ⟨l, w⟩ := lw
      simp only [sameShapeFields, Bool.and_eq_true, beq_iff_eq] at h
      obtain ⟨⟨hkl, hinner⟩, hrest⟩ := h
      subst hkl
      have tail := ih gs hrest (fun p hpm w2 hw2 => hp p (by simp [hpm]) w2 hw2)
      have hv := fun w2 hw2 => hp (k, v) (by simp) w2 hw2
      clear ih hp hrest
      by_cases hs : k = "settings"
      · cases v with
        | obj sv =>
          cases w with
          | obj sw =>
            have hkeys : keysOf sv = keysOf sw := by
              have h2 := hinner
              rw [if_pos hs] at h2
              simpa using h2
            simp [restoreWhitesFields, whitePreservedFields, hs,
              whiteSettingsOk_restore sv sw hkeys, tail]
          | str t => rw [if_pos hs] at hinner; simp [jvalBeq] at hinner
          | num n => rw [if_pos hs] at hinner; simp [jvalBeq] at hinner
          | bool b => rw [if_pos hs] at hinner; simp [jvalBeq] at hinner
          | null => rw [if_pos hs] at hinner; simp [jvalBeq] at hinner
          | arr ys => rw [if_pos hs] at hinner; simp [jvalBeq] at hinner
        | str t => cases w <;> simp [restoreWhitesFields, hs, whitePreservedFields, tail]
        | num n => cases w <;> simp [restoreWhitesFields, hs, whitePreservedFields, tail]
        | bool b => cases w <;> simp [restoreWhitesFields, hs, whitePreservedFields, tail]
        | null => cases w <;> simp [restoreWhitesFields, hs, whitePreservedFields, tail]
        | arr ys => cases w <;> simp [restoreWhitesFields, hs, whitePreservedFields, tail]
      · simp only [hs, if_false] at hinner
        simp [restoreWhitesFields, hs, whitePreservedFields, tail, hv w hinner]

theorem whitePreserved_restoreWhites (o : JVal) :
    ∀ r, sameShape o r = true → whitePreserved o (restoreWhites o r) = true := by
  induction o using JVal.myInd with
  | h1 s => intro r _; cases r <;> rfl
  | h2 n => intro r _; cases r <;> rfl
  | h3 b => intro r _; cases r <;> rfl
  | h4 => intro r _; cases r <;> rfl
  | h5 xs ih =>
    intro r h
    cases r with
    | arr ys =>
      simp only [sameShape] at h
      simp only [restoreWhites, whitePreserved]
      exact whitePreservedList_helper xs ys h (fun x hx y hy => ih x hx y hy)
    | str t => simp [sameShape, jvalBeq] at h
    | num n => simp [sameShape, jvalBeq] at h
    | bool b => simp [sameShape, jvalBeq] at h
    | null => simp [sameShape, jvalBeq] at h
    | obj gs => simp [sameShape, jvalBeq] at h
  | h6 fs ih =>
    intro r h
    cases r with
    | obj gs =>
      simp only [sameShape] at h
      simp only [restoreWhites, whitePreserved]
      exact whitePreservedFields_helper fs gs h (fun kv hkv w hw => ih kv hkv w hw)
    | str t => simp [sameShape, jvalBeq] at h
    | num n => simp [sameShape, jvalBeq] at h
    | bool b => simp [sameShape, jvalBeq] at h
    | null => simp [sameShape, jvalBeq] at h
    | arr ys => simp [sameShape, jvalBeq] at h

/-! ### Claims C10 and C4 -/

/-- **C10.** `_replace_elementor_content` never mutates its input — the source
    works on a deep copy (replacev2.py:147), modelled here by
    `replaceElementorContent` being a pure function of its input — and the
    tree it returns has identical node structure to the input: the same
    constructors, array lengths and element ordering, the same object keys in
    the same order (hence the same nodes, ids, child ordering and non-settings
    fields, which `sameShape` requires to be equal), with only the values of
    settings keys that already existed possibly differing. -/
theorem C10_replace_preserves_structure (elementorData : JVal)
    (tts : List TransformedText) (tcs : List TransformedColor) :
    sameShape elementorData (replaceElementorContent elementorData tts tcs) = true :=
  sameShape_replaceRec tts tcs elementorData (.str "")

/-- **C4.** With white-protection enabled — the protected-value override of
    spec §4.5, modelled from the spec because `src/replacev2.py` does not
    contain it (`app.py` imports the `replace_text_and_colors` variant, which
    is not in the source tree) — every settings value equal to pure white
    under a background-type key is unchanged in the replacer's output, even
    when the transformed color records supply a different replacement color
    for it. -/
theorem C4_white_protection (elementorData : JVal) (tts : List TransformedText)
    (tcs : List TransformedColor) :
    whitePreserved elementorData (replaceWithWhiteProtection elementorData tts tcs) = true :=
  whitePreserved_restoreWhites elementorData
    (replaceElementorContent elementorData tts tcs)
    (sameShape_replaceRec tts tcs elementorData (.str ""))

/-! ### The traversal-equality development (C3) -/

mutual
/-- Every child container reached by the traversal is list-typed. -/
def listChildren : JVal → Bool
  | .obj fs => listChildrenFields fs
  | .arr xs => listChildrenList xs
  | _ => true
def listChildrenFields : List (String × JVal) → Bool
  | [] => true
  | (k, v) :: rest =>
    (if k = "elements" then
      match v with
      | .arr xs => listChildrenList xs
      | _ => false
    else true) && listChildrenFields rest
def listChildrenList : List JVal → Bool
  | [] => true
  | x :: rest => listChildren x && listChildrenList rest
end

theorem visitsList_eq_helper :
    ∀ xs sec, (∀ x ∈ xs, ∀ s2, listChildren x = true → visitsExtract x s2 = visitsReplace x s2) →
      listChildrenList xs = true → visitsExtractList xs sec = visitsReplaceList xs sec := by
  intro xs
  induction xs with
  | nil => intro sec _ _; rfl
  | cons x rest ih =>
    intro sec hp h
    simp only [listChildrenList, Bool.and_eq_true] at h
    simp only [visitsExtractList, visitsReplaceList]
    rw [hp x (by simp) sec h.1, ih sec (fun y hy s2 hl => hp y (by simp [hy]) s2 hl) h.2]

theorem visitsDescend_eq_helper :
    ∀ fs sec, (∀ kv ∈ fs, ∀ s2, listChildren kv.2 = true →
        visitsExtract kv.2 s2 = visitsReplace kv.2 s2) →
      listChildrenFields fs = true →
      visitsExtractDescend fs sec = visitsReplaceDescend fs sec := by
  intro fs
  induction fs with
  | nil => intro sec _ _; rfl
  | cons kv rest ih =>
    intro sec hp h
    obtain ⟨k, v⟩ := kv
    by_cases he : k = "elements"
    · cases v with
      | arr xs =>
        simp only [listChildrenFields, he, if_true, Bool.and_eq_true] at h
        simp only [visitsExtractDescend, visitsReplaceDescend, he, if_true]
        have harr := hp (k, .arr xs) (by simp) sec (by simpa [listChildren] using h.1)
        simpa only [visitsExtract, visitsReplace] using harr
      | str t => simp [listChildrenFields, he] at h
      | num n => simp [listChildrenFields, he] at h
      | bool b => simp [listChildrenFields, he] at h
      | null => simp [listChildrenFields, he] at h
      | obj gs => simp [listChildrenFields, he] at h
    · have htail : listChildrenFields rest = true := by
        cases v <;> simp only [listChildrenFields, he, if_false, Bool.true_and] at h <;> exact h
      have tail := ih sec (fun p hpm s2 hl => hp p (by simp [hpm]) s2 hl) htail
      cases v <;> simp only [visitsExtractDescend, visitsReplaceDescend, he, if_false] <;>
        exact tail

theorem visits_eq (e : JVal) : ∀ sec, listChildren e = true →
    visitsExtract e sec = visitsReplace e sec := by
  induction e using JVal.myInd with
  | h1 s => intro sec _; rfl
  | h2 n => intro sec _; rfl
  | h3 b => intro sec _; rfl
  | h4 => intro sec _; rfl
  | h5 xs ih =>
    intro sec h
    simp only [listChildren] at h
    simp only [visitsExtract, visitsReplace]
    exact visitsList_eq_helper xs sec (fun x hx s2 hl => ih x hx s2 hl) h
  | h6 fs ih =>
    intro sec h
    simp only [listChildren] at h
    simp only [visitsExtract, visitsReplace, List.cons.injEq, true_and]
    exact visitsDescend_eq_helper fs _ (fun kv hkv s2 hl => ih kv hkv s2 hl) h

/-- **C3, counterexample.**  On a tree whose `elements` container is
    dict-typed, the two traversals do not enumerate the same nodes:
    `process_element` (exctractv2.py:152-155) descends into the dict and
    treats it as a node (here extracting a text from its settings), while
    `replace_recursive` (replacev2.py:138-140) iterates the dict's string
    keys, visiting nothing.  The claim that both traversals enumerate exactly
    the same nodes — and that both visit dict-typed containers by descending
    into the dict value — is therefore false as stated. -/
theorem C3_counterexample :
    visitsExtract
        (.obj [("id", .str "a1"),
          ("elements", .obj [("settings", .obj [("title", .str "Hello")])])]) (.str "") ≠
      visitsReplace
        (.obj [("id", .str "a1"),
          ("elements", .obj [("settings", .obj [("title", .str "Hello")])])]) (.str "") ∧
    (visitsExtract
        (.obj [("id", .str "a1"),
          ("elements", .obj [("settings", .obj [("title", .str "Hello")])])]) (.str "")).length
      = 2 ∧
    (visitsReplace
        (.obj [("id", .str "a1"),
          ("elements", .obj [("settings", .obj [("title", .str "Hello")])])]) (.str "")).length
      = 1 := by
  refine ⟨?_, by decide, by decide⟩
  decide

/-- **C3, amended.**  For every widget tree all of whose `elements` child
    containers are list-typed, the extraction traversal and the replacement
    traversal enumerate exactly the same nodes in the same order and assign
    each visited node the same derived `section_name` (both visit list-typed
    containers element by element in order); a dict-typed container, however,
    is processed as a node by extraction while replacement iterates its
    string keys and visits nothing (see the counterexample). -/
theorem C3_traversals_agree_on_list_children (e sec : JVal)
    (h : listChildren e = true) :
    visitsExtract e sec = visitsReplace e sec :=
  visits_eq e sec h

theorem C3_traversals_agree_on_list_children_witness :
    listChildren
        (.arr [.obj [("id", .str "a1"), ("elType", .str "section"),
          ("settings", .obj [("section_label", .str "Hero")]),
          ("elements", .arr [.obj [("id", .str "w1"), ("widgetType", .str "heading"),
            ("settings", .obj [("title", .str "Welcome")])]])]]) = true ∧
    visitsExtract
        (.arr [.obj [("id", .str "a1"), ("elType", .str "section"),
          ("settings", .obj [("section_label", .str "Hero")]),
          ("elements", .arr [.obj [("id", .str "w1"), ("widgetType", .str "heading"),
            ("settings", .obj [("title", .str "Welcome")])]])]]) (.str "") =
      visitsReplace
        (.arr [.obj [("id", .str "a1"), ("elType", .str "section"),
          ("settings", .obj [("section_label", .str "Hero")]),
          ("elements", .arr [.obj [("id", .str "w1"), ("widgetType", .str "heading"),
            ("settings", .obj [("title", .str "Welcome")])]])]]) (.str "") :=
  ⟨by decide,
    C3_traversals_agree_on_list_children
      (.arr [.obj [("id", .str "a1"), ("elType", .str "section"),
        ("settings", .obj [("section_label", .str "Hero")]),
        ("elements", .arr [.obj [("id", .str "w1"), ("widgetType", .str "heading"),
          ("settings", .obj [("title", .str "Welcome")])]])]]) (.str "") (by decide)⟩

/-! ### Extraction as a fold over the visit sequence -/

/-- The text records `process_element` extracts at one visited node. -/
def nodeTexts (pn : String) (p : List (String × JVal) × JVal) : List ElementorText :=
  extractLabeledTexts pn p.2
    (pyOr (getD p.1 "elType" (.str "")) (getD p.1 "widgetType" (.str "")))
    (getD p.1 "id" (.str "")) p.1

/-- The color records `process_element` extracts at one visited node. -/
def nodeColors (pn : String) (p : List (String × JVal) × JVal) : List ElementorColor :=
  extractLabeledColors pn p.2
    (pyOr (getD p.1 "elType" (.str "")) (getD p.1 "widgetType" (.str "")))
    (getD p.1 "id" (.str "")) p.1

theorem flatMapList_helper (pn : String) :
    ∀ xs sec,
      (∀ x ∈ xs, ∀ s2,
        (processElement pn x s2).1 = (visitsExtract x s2).flatMap (nodeTexts pn) ∧
        (processElement pn x s2).2.1 = (visitsExtract x s2).flatMap (nodeColors pn)) →
      (processElementList pn xs sec).1 = (visitsExtractList xs sec).flatMap (nodeTexts pn) ∧
      (processElementList pn xs sec).2.1 =
        (visitsExtractList xs sec).flatMap (nodeColors pn) := by
  intro xs
  induction xs with
  | nil => intro sec _; exact ⟨rfl, rfl⟩
  | cons x rest ih =>
    intro sec hp
    have hx := hp x (by simp) sec
    have hr := ih sec (fun y hy s2 => hp y (by simp [hy]) s2)
    simp only [processElementList, visitsExtractList, accAppend, List.flatMap_append]
    exact ⟨by rw [hx.1, hr.1], by rw [hx.2, hr.2]⟩

theorem flatMapDescend_helper (pn : String) :
    ∀ fs sec,
      (∀ kv ∈ fs, ∀ s2,
        (processElement pn kv.2 s2).1 = (visitsExtract kv.2 s2).flatMap (nodeTexts pn) ∧
        (processElement pn kv.2 s2).2.1 = (visitsExtract kv.2 s2).flatMap (nodeColors pn)) →
      (processDescend pn fs sec).1 = (visitsExtractDescend fs sec).flatMap (nodeTexts pn) ∧
      (processDescend pn fs sec).2.1 =
        (visitsExtractDescend fs sec).flatMap (nodeColors pn) := by
  intro fs
  induction fs with
  | nil => intro sec _; exact ⟨rfl, rfl⟩
  | cons kv rest ih =>
    intro sec hp
    obtain ⟨k, v⟩ := kv
    by_cases he : k = "elements"
    · cases v with
      | arr xs =>
        simp only [processDescend, visitsExtractDescend, he, if_true]
        have harr := hp (k, .arr xs) (by simp) sec
        simpa only [processElement, visitsExtract] using harr
      | obj cfs =>
        simp only [processDescend, visitsExtractDescend, he, if_true]
        have hobj := hp (k, .obj cfs) (by simp) sec
        simpa only [processElement, visitsExtract] using hobj
      | str t => simp only [processDescend, visitsExtractDescend, he, if_true]; exact ⟨rfl, rfl⟩
      | num n => simp only [processDescend, visitsExtractDescend, he, if_true]; exact ⟨rfl, rfl⟩
      | bool b => simp only [processDescend, visitsExtractDescend, he, if_true]; exact ⟨rfl, rfl⟩
      | null => simp only [processDescend, visitsExtractDescend, he, if_true]; exact ⟨rfl, rfl⟩
    · have tail := ih sec (fun p hpm s2 => hp p (by simp [hpm]) s2)
      cases v <;> simp only [processDescend, visitsExtractDescend, he, if_false] <;> exact tail

theorem processElement_flatMap (pn : String) (e : JVal) : ∀ sec,
    (processElement pn e sec).1 = (visitsExtract e sec).flatMap (nodeTexts pn) ∧
    (processElement pn e sec).2.1 = (visitsExtract e sec).flatMap (nodeColors pn) := by
  induction e using JVal.myInd with
  | h1 s => intro sec; exact ⟨rfl, rfl⟩
  | h2 n => intro sec; exact ⟨rfl, rfl⟩
  | h3 b => intro sec; exact ⟨rfl, rfl⟩
  | h4 => intro sec; exact ⟨rfl, rfl⟩
  | h5 xs ih =>
    intro sec
    simp only [processElement, visitsExtract]
    exact flatMapList_helper pn xs sec (fun x hx s2 => ih x hx s2)
  | h6 fs ih =>
    intro sec
    have hd := flatMapDescend_helper pn fs (updateSection fs sec)
      (fun kv hkv s2 => ih kv hkv s2)
    simp only [processElement, visitsExtract, List.flatMap_cons, accAppend, nodeLocalAcc,
      nodeSectionEntry, nodeTexts, nodeColors, List.append_nil]
    constructor
    · rw [hd.1]
    · rw [hd.2]

/-! ### Claim C8: extracted colors match the hex pattern -/

theorem hexColorBody_split : ∀ cs, hexColorBody cs = true → (hexBody3 cs || hexBody6 cs) = true := by
  intro cs h
  cases cs with
  | nil => simp [hexColorBody] at h
  | cons c ds =>
    simp only [hexColorBody, Bool.and_eq_true, beq_iff_eq, Bool.or_eq_true] at h
    obtain ⟨⟨hc, hall⟩, hlen⟩ := h
    subst hc
    rcases ds with _ | ⟨a, _ | ⟨b, _ | ⟨c2, _ | ⟨d, _ | ⟨e, _ | ⟨f, _ | ⟨g, tl⟩⟩⟩⟩⟩⟩⟩ <;>
      simp_all [hexBody3, hexBody6]

theorem pyHex_imp_spec (s : String) (h : pyHexColorMatch s = true) : specHexColor s = true := by
  unfold pyHexColorMatch at h
  unfold specHexColor
  simp only [Bool.or_eq_true, Bool.and_eq_true] at h ⊢
  cases h with
  | inl hb => exact Or.inl (by simpa using hexColorBody_split _ hb)
  | inr hb => exact Or.inr ⟨hb.1, by simpa using hexColorBody_split _ hb.2⟩

theorem pyHex_of_mem_extractLabeledColors (pn : String) (sec et wid : JVal)
    (fs : List (String × JVal)) (c : ElementorColor)
    (h : c ∈ extractLabeledColors pn sec et wid fs) :
    pyHexColorMatch c.color_value = true := by
  unfold extractLabeledColors at h
  cases hset : settingsOf fs with
  | none => rw [hset] at h; simp at h
  | some sf =>
    rw [hset] at h
    simp only [List.mem_flatMap] at h
    obtain ⟨cat, hcat, h2⟩ := h
    obtain ⟨k, hk, h3⟩ := h2
    cases hl : lookupF sf k with
    | none => rw [hl] at h3; simp at h3
    | some v =>
      rw [hl] at h3
      cases v with
      | str cv =>
        by_cases hm : pyHexColorMatch cv = true
        · simp only [hm, if_true, List.mem_singleton] at h3
          subst h3
          exact hm
        · simp [hm] at h3
      | num n => simp at h3
      | bool b => simp at h3
      | null => simp at h3
      | arr xs => simp at h3
      | obj gs => simp at h3

/-- **C8.** Every `color_value` in every `ElementorColor` record produced by
    extraction matches the pattern of a `#` followed by exactly 3 or exactly
    6 hex digits (`specHexColor`, written from the claim's two regexes and
    read with Python's `$`-before-one-trailing-newline convention, which the
    source's guard `re.match(r'^#(?:[0-9a-fA-F]{3}){1,2}$', ·)` shares). -/
theorem C8_extracted_colors_hex (elementorData : JVal) (pageTitle pageSlug : String)
    (c : ElementorColor)
    (hc : c ∈ (extractPageData elementorData pageTitle pageSlug).colors) :
    specHexColor c.color_value = true := by
  have hf := (processElement_flatMap pageTitle elementorData (.str "")).2
  simp only [extractPageData] at hc
  rw [hf] at hc
  simp only [List.mem_flatMap] at hc
  obtain ⟨p, hp, hcp⟩ := hc
  exact pyHex_imp_spec _ (pyHex_of_mem_extractLabeledColors _ _ _ _ _ _ hcp)

theorem C8_extracted_colors_hex_witness : specHexColor "#FFFFFF" = true :=
  C8_extracted_colors_hex
    (.obj [("id", .str "w1"), ("widgetType", .str "heading"),
      ("settings", .obj [("background_color", .str "#FFFFFF")])]) "home" "home"
    ⟨"home", .str "", .str "heading", "background_background_color", "#FFFFFF", .str "w1"⟩
    (by decide)

/-! ### Claim C9: cleaning is applied uniformly, not only to rich keys -/

/-- The cleaning claim C9 prescribes for keys outside the designated rich
    (free-text editor) set: only collapse whitespace (and strip), with no tag
    stripping and no entity unescaping. -/
def collapseWhitespaceOnly (s : String) : String :=
  String.mk (stripChars (collapseWs s.toList false))

/-- **C9, counterexample.**  `_extract_labeled_texts` pipes every candidate
    string value through `_clean_html_content` (exctractv2.py:189), with no
    key-dependent branching: the key `title` — a heading key, not a free-text
    editor field under the spec's designation — has its HTML tags stripped,
    whereas the claim says such values are only whitespace-collapsed. -/
theorem C9_counterexample :
    (extractPageData
        (.obj [("id", .str "w1"),
          ("settings", .obj [("title", .str "<b>Hi</b>")])]) "home" "home").texts.map
      (fun t => t.content) = ["Hi"] ∧
    collapseWhitespaceOnly "<b>Hi</b>" = "<b>Hi</b>" ∧ ("Hi" : String) ≠ "<b>Hi</b>" := by
  refine ⟨by decide, by decide, by decide⟩

/-- **C9, amended.**  During text extraction, every produced record comes from
    a candidate settings key with a string value, its content is that value
    cleaned by the single uniform pipeline `_clean_html_content` (HTML tag
    stripping, entity unescaping and whitespace collapsing, applied to every
    key regardless of any rich/non-rich distinction), and any value that is
    empty after cleaning produces no record. -/
theorem C9_uniform_cleaning (pn : String) (sec et wid : JVal)
    (fs : List (String × JVal)) (r : ElementorText)
    (h : r ∈ extractLabeledTexts pn sec et wid fs) :
    r.content ≠ "" ∧
    ∃ catEntry ∈ textLabelMapping, ∃ k ∈ catEntry.2, ∃ content sv,
      settingsOf fs = some sv ∧ lookupF sv k = some (.str content) ∧
      r.content = cleanHtmlContent content ∧ r.label = catEntry.1 ++ "_" ++ k := by
  unfold extractLabeledTexts at h
  cases hset : settingsOf fs with
  | none => rw [hset] at h; simp at h
  | some sv =>
    rw [hset] at h
    simp only [List.mem_flatMap] at h
    obtain ⟨cat, hcat, k, hk, h3⟩ := h
    cases hl : lookupF sv k with
    | none => rw [hl] at h3; simp at h3
    | some v =>
      rw [hl] at h3
      cases v with
      | str content =>
        by_cases hne : cleanHtmlContent content != ""
        · simp only [hne, if_true, List.mem_singleton] at h3
          subst h3
          refine ⟨by simpa using hne, cat, hcat, k, hk, content, sv, rfl, hl, rfl, rfl⟩
        · simp [hne] at h3
      | num n => simp at h3
      | bool b => simp at h3
      | null => simp at h3
      | arr xs => simp at h3
      | obj gs => simp at h3

theorem C9_uniform_cleaning_witness :
    (⟨"home", .str "", .str "", "heading_title", "Hi", .str "w1"⟩ : ElementorText).content ≠ "" ∧
    ∃ catEntry ∈ textLabelMapping, ∃ k ∈ catEntry.2, ∃ content sv,
      settingsOf [("id", .str "w1"), ("settings", .obj [("title", .str "<b>Hi</b>")])] =
        some sv ∧
      lookupF sv k = some (.str content) ∧
      (⟨"home", .str "", .str "", "heading_title", "Hi", .str "w1"⟩ : ElementorText).content =
        cleanHtmlContent content ∧
      (⟨"home", .str "", .str "", "heading_title", "Hi", .str "w1"⟩ : ElementorText).label =
        catEntry.1 ++ "_" ++ k :=
  C9_uniform_cleaning "home" (.str "") (.str "") (.str "w1")
    [("id", .str "w1"), ("settings", .obj [("title", .str "<b>Hi</b>")])]
    ⟨"home", .str "", .str "", "heading_title", "Hi", .str "w1"⟩ (by decide)

/-! ### Claim C5: recovering the literal settings key from the label -/

/-- **C5, counterexample.**  For the literal settings key `title_text`
    (category `heading`), the label is `heading_title_text`, and the text
    after its last underscore is `text`, not `title_text`: the claim that the
    last-underscore split always recovers the literal key is false, exactly
    as spec §9 itself warns for keys that contain underscores. -/
theorem C5_counterexample :
    (extractPageData
        (.obj [("id", .str "w"),
          ("settings", .obj [("title_text", .str "Hello")])]) "p" "s").texts =
      [⟨"p", .str "", .str "", "heading_title_text", "Hello", .str "w"⟩] ∧
    lastUnderscoreComp "heading_title_text" = "text" ∧
    ("text" : String) ≠ "title_text" := by
  refine ⟨by decide, by decide, by decide⟩

/-- **C5, amended.**  (i) For every text category and candidate key of the
    extraction table whose literal key contains no underscore, the text after
    the last underscore of the composite label recovers the literal key
    exactly (keys with underscores only yield their final component, see the
    counterexample).  (ii) For every color category and candidate key, the
    replacer's actual derivation — the text after the *first* underscore,
    `variable_name.split('_', 1)[-1]` — recovers the literal key exactly,
    because no color category name contains an underscore.  (iii) On a
    `(widget_id, section_name)` match the replacer overwrites the derived
    settings key only when the key exists, silently skipping otherwise, for
    texts and for colors alike. -/
theorem C5_key_recovery :
    textLabelMapping.all (fun cat => cat.2.all (fun k =>
      hasUnderscore k || (lastUnderscoreComp (cat.1 ++ "_" ++ k) == k))) = true ∧
    colorVariableMapping.all (fun cat => cat.2.all (fun k =>
      afterFirstUnderscore (cat.1 ++ "_" ++ k) == k)) = true ∧
    (∀ (eid sec : JVal) (sf : List (String × JVal)) (t : TransformedText),
      t.widget_id = eid → t.section_name = sec →
      (lookupF sf (lastUnderscoreComp t.label) = none → applyText eid sec sf t = sf) ∧
      (∀ v, lookupF sf (lastUnderscoreComp t.label) = some v →
        applyText eid sec sf t =
          setF sf (lastUnderscoreComp t.label) t.transformed_content)) ∧
    (∀ (eid sec : JVal) (sf : List (String × JVal)) (t : TransformedColor),
      t.widget_id = eid → t.section_name = sec →
      (lookupF sf (afterFirstUnderscore t.variable_name) = none →
        applyColor eid sec sf t = sf) ∧
      (∀ v, lookupF sf (afterFirstUnderscore t.variable_name) = some v →
        applyColor eid sec sf t =
          setF sf (afterFirstUnderscore t.variable_name) t.transformed_color)) := by
  refine ⟨by decide, by decide, ?_, ?_⟩
  · intro eid sec sf t h1 h2
    constructor
    · intro hn
      unfold applyText
      rw [if_pos ⟨h1, h2⟩, hn]
    · intro v hv
      unfold applyText
      rw [if_pos ⟨h1, h2⟩, hv]
  · intro eid sec sf t h1 h2
    constructor
    · intro hn
      unfold applyColor
      rw [if_pos ⟨h1, h2⟩, hn]
    · intro v hv
      unfold applyColor
      rw [if_pos ⟨h1, h2⟩, hv]

theorem C5_key_recovery_witness :
    applyText (.str "w") (.str "") [("other", .str "x")]
      ⟨.str "w", .str "", "heading_title", .str "New"⟩ = [("other", .str "x")] :=
  (C5_key_recovery.2.2.1 (.str "w") (.str "") [("other", .str "x")]
    ⟨.str "w", .str "", "heading_title", .str "New"⟩ rfl rfl).1 (by decide)

/-! ### Claim C2: identity round-trip -/

/-- Identity transformed-text records: same identity fields, transformed
    content equal to the extracted content. -/
def identityTexts (ts : List ElementorText) : List TransformedText :=
  ts.map (fun t => ⟨t.widget_id, t.section_name, t.label, .str t.content⟩)

/-- Identity transformed-color records. -/
def identityColors (cs : List ElementorColor) : List TransformedColor :=
  cs.map (fun c => ⟨c.widget_id, c.section_name, c.variable_name, .str c.color_value⟩)

/-- The per-node safety condition of the amended round-trip: every candidate
    text key present in this node's settings with a string value has no
    underscore in the literal key (so the label's last-underscore split
    recovers it) and a value on which `_clean_html_content` is the
    identity. -/
def textKeysSafe (fs : List (String × JVal)) : Bool :=
  match settingsOf fs with
  | none => true
  | some sv =>
    textLabelMapping.all (fun cat =>
      cat.2.all (fun k =>
        match lookupF sv k with
        | some (.str content) =>
          !hasUnderscore k && (cleanHtmlContent content == content)
        | _ => true))

/-- No two bindings of the field list share a key. -/
def nodupKeysB : List (String × JVal) → Bool
  | [] => true
  | (k, _) :: rest => rest.all (fun p => !(p.1 == k)) && nodupKeysB rest

mutual
/-- Every object anywhere in the tree has pairwise-distinct keys — true of
    any tree produced by `json.loads`, whose objects are Python dicts. -/
def uniqKeys : JVal → Bool
  | .obj fs => nodupKeysB fs && uniqKeysFields fs
  | .arr xs => uniqKeysList xs
  | _ => true
def uniqKeysFields : List (String × JVal) → Bool
  | [] => true
  | kv :: rest => uniqKeys kv.2 && uniqKeysFields rest
def uniqKeysList : List JVal → Bool
  | [] => true
  | x :: rest => uniqKeys x && uniqKeysList rest
end

theorem takeWhile_all_append (p : Char → Bool) :
    ∀ (l1 l2 : List Char), (∀ c ∈ l1, p c = true) → (∀ c l3, l2 = c :: l3 → p c = false) →
      (l1 ++ l2).takeWhile p = l1 := by
  intro l1
  induction l1 with
  | nil =>
    intro l2 _ h2
    cases l2 with
    | nil => rfl
    | cons c l3 => simp [List.takeWhile_cons, h2 c l3 rfl]
  | cons a l1 ih =>
    intro l2 h1 h2
    simp only [List.cons_append, List.takeWhile_cons, h1 a (by simp), if_true,
      List.cons.injEq, true_and]
    exact ih l2 (fun c hc => h1 c (by simp [hc])) h2

theorem dropWhile_all_append (p : Char → Bool) :
    ∀ (l1 l2 : List Char), (∀ c ∈ l1, p c = true) →
      (l1 ++ l2).dropWhile p = l2.dropWhile p := by
  intro l1
  induction l1 with
  | nil => intro l2 _; rfl
  | cons a l1 ih =>
    intro l2 h1
    simp only [List.cons_append, List.dropWhile_cons, h1 a (by simp), if_true]
    exact ih l2 (fun c hc => h1 c (by simp [hc]))

theorem hasUnderscore_false_all (k : String) (h : hasUnderscore k = false) :
    ∀ c ∈ k.toList, (c != '_') = true := by
  intro c hc
  simp only [hasUnderscore, List.any_eq_false, decide_eq_true_eq] at h
  simp only [bne_iff_ne, ne_eq]
  exact h c hc

theorem lastUnderscoreComp_append (x k : String) (h : hasUnderscore k = false) :
    lastUnderscoreComp (x ++ "_" ++ k) = k := by
  unfold lastUnderscoreComp
  have htl : (x ++ "_" ++ k).toList = x.toList ++ '_' :: k.toList := by
    simp [String.toList, String.data_append]
  rw [htl]
  have hrev : (x.toList ++ '_' :: k.toList).reverse =
      k.toList.reverse ++ '_' :: x.toList.reverse := by
    simp
  rw [hrev]
  rw [takeWhile_all_append _ _ _
    (fun c hc => hasUnderscore_false_all k h c (by simpa using hc))
    (fun c l3 hc => by
      cases hc
      rfl)]
  simp

theorem afterFirstUnderscore_append (x k : String) (h : hasUnderscore x = false) :
    afterFirstUnderscore (x ++ "_" ++ k) = k := by
  unfold afterFirstUnderscore
  have htl : (x ++ "_" ++ k).toList = x.toList ++ '_' :: k.toList := by
    simp [String.toList, String.data_append]
  rw [htl]
  rw [dropWhile_all_append _ _ _ (fun c hc => hasUnderscore_false_all x h c hc)]
  simp

theorem foldl_self {α β : Type} (f : β → α → β) (b : β) :
    ∀ l : List α, (∀ a ∈ l, f b a = b) → l.foldl f b = b
  | [], _ => rfl
  | a :: l, h => by
    rw [List.foldl_cons, h a (by simp)]
    exact foldl_self f b l (fun x hx => h x (by simp [hx]))

theorem lookupF_of_nodup : ∀ (fs : List (String × JVal)) (k : String) (v : JVal),
    nodupKeysB fs = true → (k, v) ∈ fs → lookupF fs k = some v := by
  intro fs
  induction fs with
  | nil => intro k v _ h; simp at h
  | cons lu rest ih =>
    intro k v hn hm
    obtain ⟨l, u⟩ := lu
    simp only [nodupKeysB, Bool.and_eq_true, List.all_eq_true] at hn
    simp only [List.mem_cons] at hm
    cases hm with
    | inl he =>
      obtain ⟨hk, hv⟩ := Prod.mk.injEq .. ▸ he
      simp only [lookupF, hk, hv]
      simp [hk.symm]
    | inr hr =>
      by_cases he : l = k
      · exfalso
        have := hn.1 (k, v) hr
        simp [he] at this
      · simp only [lookupF, he, if_false]
        exact ih k v hn.2 hr

theorem setF_lookup_self : ∀ (sf : List (String × JVal)) (k : String) (v : JVal),
    lookupF sf k = some v → setF sf k v = sf := by
  intro sf
  induction sf with
  | nil => intro k v h; simp [lookupF] at h
  | cons lu rest ih =>
    intro k v h
    obtain ⟨l, u⟩ := lu
    by_cases he : l = k
    · simp only [lookupF, he, if_true, Option.some.injEq] at h
      simp [setF, he, h]
    · simp only [lookupF, he, if_false] at h
      simp [setF, he, ih k v h]

/-- Iterating a dict's keys visits nothing, so the replacement descent is
    driven entirely by the first `elements` binding when it is list-typed. -/
theorem visitsReplaceDescend_eq_lookup : ∀ (fs : List (String × JVal)) (sec : JVal),
    visitsReplaceDescend fs sec =
      match lookupF fs "elements" with
      | some (.arr xs) => visitsReplaceList xs sec
      | _ => [] := by
  intro fs
  induction fs with
  | nil => intro sec; rfl
  | cons kv rest ih =>
    intro sec
    obtain ⟨k, v⟩ := kv
    by_cases he : k = "elements"
    · cases v <;> simp [visitsReplaceDescend, lookupF, he]
    · cases v <;> simp [visitsReplaceDescend, lookupF, he, ih sec]

theorem visitsReplaceList_sub_helper :
    ∀ (xs : List JVal) (sec : JVal),
      (∀ x ∈ xs, ∀ s2 p, p ∈ visitsReplace x s2 → p ∈ visitsExtract x s2) →
      ∀ p ∈ visitsReplaceList xs sec, p ∈ visitsExtractList xs sec := by
  intro xs
  induction xs with
  | nil => intro sec _ p hp; simp [visitsReplaceList] at hp
  | cons x rest ih =>
    intro sec hp p hm
    simp only [visitsReplaceList, List.mem_append] at hm
    simp only [visitsExtractList, List.mem_append]
    cases hm with
    | inl h => exact Or.inl (hp x (by simp) sec p h)
    | inr h => exact Or.inr (ih sec (fun y hy s2 q hq => hp y (by simp [hy]) s2 q hq) p h)

theorem visitsReplaceDescend_sub_helper :
    ∀ (fs : List (String × JVal)) (sec : JVal),
      (∀ kv ∈ fs, ∀ s2 p, p ∈ visitsReplace kv.2 s2 → p ∈ visitsExtract kv.2 s2) →
      ∀ p ∈ visitsReplaceDescend fs sec, p ∈ visitsExtractDescend fs sec := by
  intro fs
  induction fs with
  | nil => intro sec _ p hp; simp [visitsReplaceDescend] at hp
  | cons kv rest ih =>
    intro sec hp p hm
    obtain ⟨k, v⟩ := kv
    by_cases he : k = "elements"
    · cases v with
      | arr xs =>
        simp only [visitsReplaceDescend, he, if_true] at hm
        simp only [visitsExtractDescend, he, if_true]
        have h := hp (k, .arr xs) (by simp) sec p
        simp only [visitsReplace, visitsExtract] at h
        exact h hm
      | str s => simp [visitsReplaceDescend, he] at hm
      | num n => simp [visitsReplaceDescend, he] at hm
      | bool b => simp [visitsReplaceDescend, he] at hm
      | null => simp [visitsReplaceDescend, he] at hm
      | obj gs => simp [visitsReplaceDescend, he] at hm
    · have tail := ih sec (fun q hq s2 r hr => hp q (by simp [hq]) s2 r hr) p
      cases v <;>
        simp only [visitsReplaceDescend, visitsExtractDescend, he, if_false] at hm ⊢ <;>
        exact tail hm

/-- Every node the replacement traversal visits is also visited by the
    extraction traversal, with the same fields and derived section name
    (extraction additionally descends into dict-typed containers). -/
theorem visitsReplace_sub (v : JVal) :
    ∀ sec p, p ∈ visitsReplace v sec → p ∈ visitsExtract v sec := by
  induction v using JVal.myInd with
  | h1 s => intro sec p hp; simp [visitsReplace] at hp
  | h2 n => intro sec p hp; simp [visitsReplace] at hp
  | h3 b => intro sec p hp; simp [visitsReplace] at hp
  | h4 => intro sec p hp; simp [visitsReplace] at hp
  | h5 xs ih =>
    intro sec p hp
    simp only [visitsReplace] at hp
    simp only [visitsExtract]
    exact visitsReplaceList_sub_helper xs sec (fun x hx s2 q hq => ih x hx s2 q hq) p hp
  | h6 fs ih =>
    intro sec p hp
    simp only [visitsReplace, List.mem_cons] at hp
    simp only [visitsExtract, List.mem_cons]
    cases hp with
    | inl h => exact Or.inl h
    | inr h =>
      exact Or.inr
        (visitsReplaceDescend_sub_helper fs _ (fun kv hkv s2 q hq => ih kv hkv s2 q hq) p h)

theorem uniqKeysFields_mem : ∀ (fs : List (String × JVal)), uniqKeysFields fs = true →
    ∀ kv ∈ fs, uniqKeys kv.2 = true := by
  intro fs
  induction fs with
  | nil => intro _ kv h; simp at h
  | cons a rest ih =>
    intro h kv hm
    simp only [uniqKeysFields, Bool.and_eq_true] at h
    simp only [List.mem_cons] at hm
    cases hm with
    | inl he => subst he; exact h.1
    | inr hr => exact ih h.2 kv hr

theorem uniqKeysList_mem : ∀ (xs : List JVal), uniqKeysList xs = true →
    ∀ x ∈ xs, uniqKeys x = true := by
  intro xs
  induction xs with
  | nil => intro _ x h; simp at h
  | cons a rest ih =>
    intro h x hm
    simp only [uniqKeysList, Bool.and_eq_true] at h
    simp only [List.mem_cons] at hm
    cases hm with
    | inl he => subst he; exact h.1
    | inr hr => exact ih h.2 x hr

theorem visitsExtractList_uniq_helper :
    ∀ (xs : List JVal) (sec : JVal),
      (∀ x ∈ xs, ∀ s2, uniqKeys x = true →
        ∀ p ∈ visitsExtract x s2, uniqKeys (.obj p.1) = true) →
      uniqKeysList xs = true →
      ∀ p ∈ visitsExtractList xs sec, uniqKeys (.obj p.1) = true := by
  intro xs
  induction xs with
  | nil => intro sec _ _ p hp; simp [visitsExtractList] at hp
  | cons x rest ih =>
    intro sec hp hu p hm
    simp only [uniqKeysList, Bool.and_eq_true] at hu
    simp only [visitsExtractList, List.mem_append] at hm
    cases hm with
    | inl h => exact hp x (by simp) sec hu.1 p h
    | inr h => exact ih sec (fun y hy s2 h2 q hq => hp y (by simp [hy]) s2 h2 q hq) hu.2 p h

theorem visitsExtractDescend_uniq_helper :
    ∀ (fs : List (String × JVal)) (sec : JVal),
      (∀ kv ∈ fs, ∀ s2, uniqKeys kv.2 = true →
        ∀ p ∈ visitsExtract kv.2 s2, uniqKeys (.obj p.1) = true) →
      uniqKeysFields fs = true →
      ∀ p ∈ visitsExtractDescend fs sec, uniqKeys (.obj p.1) = true := by
  intro fs
  induction fs with
  | nil => intro sec _ _ p hp; simp [visitsExtractDescend] at hp
  | cons kv rest ih =>
    intro sec hp hu p hm
    obtain ⟨k, v⟩ := kv
    have hv2 : uniqKeys v = true := uniqKeysFields_mem _ hu (k, v) (by simp)
    have hurest : uniqKeysFields rest = true := by
      simp only [uniqKeysFields, Bool.and_eq_true] at hu
      exact hu.2
    by_cases he : k = "elements"
    · cases v with
      | arr xs =>
        simp only [visitsExtractDescend, he, if_true] at hm
        have h := hp (k, .arr xs) (by simp) sec hv2 p
        simp only [visitsExtract] at h
        exact h hm
      | obj cfs =>
        simp only [visitsExtractDescend, he, if_true] at hm
        have h := hp (k, .obj cfs) (by simp) sec hv2 p
        simp only [visitsExtract] at h
        exact h hm
      | str s => simp [visitsExtractDescend, he] at hm
      | num n => simp [visitsExtractDescend, he] at hm
      | bool b => simp [visitsExtractDescend, he] at hm
      | null => simp [visitsExtractDescend, he] at hm
    · have tail := ih sec (fun q hq s2 h2 r hr => hp q (by simp [hq]) s2 h2 r hr) hurest p
      cases v <;> simp only [visitsExtractDescend, he, if_false] at hm <;> exact tail hm

/-- Key uniqueness propagates from the root to every visited node. -/
theorem visitsExtract_uniq (v : JVal) : ∀ sec, uniqKeys v = true →
    ∀ p ∈ visitsExtract v sec, uniqKeys (.obj p.1) = true := by
  induction v using JVal.myInd with
  | h1 s => intro sec _ p hp; simp [visitsExtract] at hp
  | h2 n => intro sec _ p hp; simp [visitsExtract] at hp
  | h3 b => intro sec _ p hp; simp [visitsExtract] at hp
  | h4 => intro sec _ p hp; simp [visitsExtract] at hp
  | h5 xs ih =>
    intro sec hu p hp
    simp only [visitsExtract] at hp
    exact visitsExtractList_uniq_helper xs sec (fun x hx s2 h2 q hq => ih x hx s2 h2 q hq)
      (by simpa [uniqKeys] using hu) p hp
  | h6 fs ih =>
    intro sec hu p hp
    simp only [visitsExtract, List.mem_cons] at hp
    cases hp with
    | inl he => subst he; exact hu
    | inr hr =>
      have hu2 : uniqKeysFields fs = true := by
        simp only [uniqKeys, Bool.and_eq_true] at hu
        exact hu.2
      exact visitsExtractDescend_uniq_helper fs _
        (fun kv hkv s2 h2 q hq => ih kv hkv s2 h2 q hq) hu2 p hr

/-- Decomposition of one extracted text record into the settings lookup it
    came from (exctractv2.py:169-201). -/
theorem mem_extractLabeledTexts_decomp (pn : String) (sec et wid : JVal)
    (fs : List (String × JVal)) (r : ElementorText)
    (h : r ∈ extractLabeledTexts pn sec et wid fs) :
    ∃ sf cat k content, settingsOf fs = some sf ∧ cat ∈ textLabelMapping ∧ k ∈ cat.2 ∧
      lookupF sf k = some (.str content) ∧ cleanHtmlContent content ≠ "" ∧
      r = ⟨pn, sec, et, cat.1 ++ "_" ++ k, cleanHtmlContent content, wid⟩ := by
  unfold extractLabeledTexts at h
  cases hset : settingsOf fs with
  | none => rw [hset] at h; simp at h
  | some sf =>
    rw [hset] at h
    simp only [List.mem_flatMap] at h
    obtain ⟨cat, hcat, h2⟩ := h
    obtain ⟨k, hk, h3⟩ := h2
    cases hl : lookupF sf k with
    | none => rw [hl] at h3; simp at h3
    | some v =>
      rw [hl] at h3
      cases v with
      | str content =>
        by_cases hne : cleanHtmlContent content = ""
        · simp [hne] at h3
        · refine ⟨sf, cat, k, content, rfl, hcat, hk, hl, hne, ?_⟩
          simp only [bne_iff_ne, ne_eq, hne, not_false_eq_true, if_true,
            List.mem_singleton] at h3
          exact h3
      | num n => simp at h3
      | bool b => simp at h3
      | null => simp at h3
      | arr xs => simp at h3
      | obj gs => simp at h3

/-- Decomposition of one extracted color record (exctractv2.py:203-233). -/
theorem mem_extractLabeledColors_decomp (pn : String) (sec et wid : JVal)
    (fs : List (String × JVal)) (r : ElementorColor)
    (h : r ∈ extractLabeledColors pn sec et wid fs) :
    ∃ sf cat k cv, settingsOf fs = some sf ∧ cat ∈ colorVariableMapping ∧ k ∈ cat.2 ∧
      lookupF sf k = some (.str cv) ∧ pyHexColorMatch cv = true ∧
      r = ⟨pn, sec, et, cat.1 ++ "_" ++ k, cv, wid⟩ := by
  unfold extractLabeledColors at h
  cases hset : settingsOf fs with
  | none => rw [hset] at h; simp at h
  | some sf =>
    rw [hset] at h
    simp only [List.mem_flatMap] at h
    obtain ⟨cat, hcat, h2⟩ := h
    obtain ⟨k, hk, h3⟩ := h2
    cases hl : lookupF sf k with
    | none => rw [hl] at h3; simp at h3
    | some v =>
      rw [hl] at h3
      cases v with
      | str cv =>
        by_cases hm : pyHexColorMatch cv = true
        · simp only [hm, if_true, List.mem_singleton] at h3
          exact ⟨sf, cat, k, cv, rfl, hcat, hk, hl, hm, h3⟩
        · simp [hm] at h3
      | num n => simp at h3
      | bool b => simp at h3
      | null => simp at h3
      | arr xs => simp at h3
      | obj gs => simp at h3

theorem textKeysSafe_spec (fs sf : List (String × JVal)) (cat : String × List String)
    (k content : String) (hsafe : textKeysSafe fs = true) (hset : settingsOf fs = some sf)
    (hcat : cat ∈ textLabelMapping) (hk : k ∈ cat.2)
    (hl : lookupF sf k = some (.str content)) :
    hasUnderscore k = false ∧ cleanHtmlContent content = content := by
  unfold textKeysSafe at hsafe
  rw [hset] at hsafe
  simp only [List.all_eq_true] at hsafe
  have h := hsafe cat hcat k hk
  rw [hl] at h
  simp only [Bool.and_eq_true, Bool.not_eq_true', beq_iff_eq] at h
  exact h

/-- None of the color-category names contains an underscore, so
    `name.split('_', 1)[-1]` recovers the settings key exactly. -/
theorem colorCats_noUnderscore :
    ∀ cat ∈ colorVariableMapping, hasUnderscore cat.1 = false := by decide

/-- The no-op condition at one visited node: applying every transformed
    record to its settings dict leaves the dict unchanged. -/
def nodeNoop (tts : List TransformedText) (tcs : List TransformedColor)
    (fs : List (String × JVal)) (sec : JVal) : Prop :=
  ∀ kv ∈ fs, kv.1 = "settings" → ∀ sf, kv.2 = JVal.obj sf →
    applyColors tcs (getD fs "id" (.str "")) sec
      (applyTexts tts (getD fs "id" (.str "")) sec sf) = sf

theorem replaceFields_noop (tts : List TransformedText) (tcs : List TransformedColor)
    (sec eid : JVal) :
    ∀ fs : List (String × JVal),
      (∀ kv ∈ fs, kv.1 = "settings" → ∀ sf, kv.2 = JVal.obj sf →
        applyColors tcs eid sec (applyTexts tts eid sec sf) = sf) →
      (∀ kv ∈ fs, kv.1 = "elements" → ∀ xs, kv.2 = JVal.arr xs →
        replaceRecList tts tcs xs sec = xs) →
      replaceFields tts tcs fs sec eid = fs := by
  intro fs
  induction fs with
  | nil => intro _ _; rfl
  | cons kv rest ih =>
    intro hs he
    obtain ⟨k, v⟩ := kv
    have tail := ih (fun p hp => hs p (by simp [hp])) (fun p hp => he p (by simp [hp]))
    by_cases hks : k = "settings"
    · cases v with
      | obj sf =>
        have h := hs (k, .obj sf) (by simp) hks sf rfl
        simp [replaceFields, hks, tail, h]
      | str s => simp [replaceFields, hks, tail]
      | num n => simp [replaceFields, hks, tail]
      | bool b => simp [replaceFields, hks, tail]
      | null => simp [replaceFields, hks, tail]
      | arr xs => simp [replaceFields, hks, tail]
    · by_cases hke : k = "elements"
      · cases v with
        | arr xs =>
          have h := he (k, .arr xs) (by simp) hke xs rfl
          simp [replaceFields, hks, hke, tail, h]
        | str s => simp [replaceFields, hks, hke, tail]
        | num n => simp [replaceFields, hks, hke, tail]
        | bool b => simp [replaceFields, hks, hke, tail]
        | null => simp [replaceFields, hks, hke, tail]
        | obj gs => simp [replaceFields, hks, hke, tail]
      · cases v <;> simp [replaceFields, hks, hke, tail]

theorem replaceRecList_noop (tts : List TransformedText) (tcs : List TransformedColor) :
    ∀ (xs : List JVal) (sec : JVal),
      (∀ x ∈ xs, ∀ s2, uniqKeys x = true →
        (∀ p ∈ visitsReplace x s2, nodeNoop tts tcs p.1 p.2) →
        replaceRec tts tcs x s2 = x) →
      uniqKeysList xs = true →
      (∀ p ∈ visitsReplaceList xs sec, nodeNoop tts tcs p.1 p.2) →
      replaceRecList tts tcs xs sec = xs := by
  intro xs
  induction xs with
  | nil => intro sec _ _ _; rfl
  | cons x rest ih =>
    intro sec hp hu hn
    simp only [uniqKeysList, Bool.and_eq_true] at hu
    simp only [replaceRecList]
    rw [hp x (by simp) sec hu.1
        (fun p hpm => hn p (by
          simp only [visitsReplaceList, List.mem_append]
          exact Or.inl hpm)),
      ih sec (fun y hy s2 h2 h3 => hp y (by simp [hy]) s2 h2 h3) hu.2
        (fun p hpm => hn p (by
          simp only [visitsReplaceList, List.mem_append]
          exact Or.inr hpm))]

/-- If key lists are duplicate-free everywhere and applying the transformed
    records at every visited node leaves its settings unchanged, then
    `replace_recursive` is the identity. -/
theorem replaceRec_noop (tts : List TransformedText) (tcs : List TransformedColor)
    (v : JVal) : ∀ sec, uniqKeys v = true →
      (∀ p ∈ visitsReplace v sec, nodeNoop tts tcs p.1 p.2) →
      replaceRec tts tcs v sec = v := by
  induction v using JVal.myInd with
  | h1 s => intro sec _ _; rfl
  | h2 n => intro sec _ _; rfl
  | h3 b => intro sec _ _; rfl
  | h4 => intro sec _ _; rfl
  | h5 xs ih =>
    intro sec hu hn
    simp only [replaceRec]
    rw [replaceRecList_noop tts tcs xs sec (fun x hx s2 h2 h3 => ih x hx s2 h2 h3)
      (by simpa [uniqKeys] using hu)
      (by simpa [visitsReplace] using hn)]
  | h6 fs ih =>
    intro sec hu hn
    simp only [uniqKeys, Bool.and_eq_true] at hu
    have hself : nodeNoop tts tcs fs (updateSection fs sec) :=
      hn (fs, updateSection fs sec) (by simp [visitsReplace])
    have hdesc : ∀ p ∈ visitsReplaceDescend fs (updateSection fs sec),
        nodeNoop tts tcs p.1 p.2 := by
      intro p hp
      apply hn
      simp only [visitsReplace, List.mem_cons]
      exact Or.inr hp
    simp only [replaceRec]
    rw [replaceFields_noop tts tcs (updateSection fs sec) (getD fs "id" (.str "")) fs hself ?_]
    intro kv hkv hke xs hv
    obtain ⟨k0, v0⟩ := kv
    have hke2 : k0 = "elements" := hke
    have hv2 : v0 = JVal.arr xs := hv
    subst hke2
    subst hv2
    have hl : lookupF fs "elements" = some (.arr xs) :=
      lookupF_of_nodup fs _ _ hu.1 hkv
    have hd : visitsReplaceDescend fs (updateSection fs sec) =
        visitsReplaceList xs (updateSection fs sec) := by
      rw [visitsReplaceDescend_eq_lookup, hl]
    have hvc : ∀ p ∈ visitsReplace (JVal.arr xs) (updateSection fs sec),
        nodeNoop tts tcs p.1 p.2 := by
      intro p hp
      apply hdesc
      rw [hd]
      simpa [visitsReplace] using hp
    have harr := ih ("elements", JVal.arr xs) hkv (updateSection fs sec)
      (uniqKeysFields_mem fs hu.2 _ hkv) hvc
    simpa [replaceRec] using harr

/-- **C2, counterexample.**  The round-trip is not the identity on every
    well-formed document: extraction pipes each text through
    `_clean_html_content` (exctractv2.py:235-241), so an identity transformed
    record carries the *cleaned* text, and the replacer writes that cleaned
    text back over the original markup (replacev2.py:118-125).  Here
    `<p>Hi</p>` comes back as `Hi`, so the output tree differs from the input
    even though every transformed value equals its extracted value. -/
theorem C2_counterexample :
    replaceElementorContent
        (.obj [("id", .str "w1"), ("widgetType", .str "heading"),
          ("settings", .obj [("title", .str "<p>Hi</p>")])])
        (identityTexts (extractPageData
          (.obj [("id", .str "w1"), ("widgetType", .str "heading"),
            ("settings", .obj [("title", .str "<p>Hi</p>")])]) "home" "home").texts)
        (identityColors (extractPageData
          (.obj [("id", .str "w1"), ("widgetType", .str "heading"),
            ("settings", .obj [("title", .str "<p>Hi</p>")])]) "home" "home").colors) ≠
      .obj [("id", .str "w1"), ("widgetType", .str "heading"),
        ("settings", .obj [("title", .str "<p>Hi</p>")])] := by decide

/-- **C2, amended.**  Extract-then-replace with identity transformed records
    (each record's transformed value equal to its extracted value) returns the
    input tree exactly, provided (i) every object in the tree has
    duplicate-free keys (true of any `json.loads` output), (ii) no two visited
    nodes share the same `(widget_id, section_name)` pair, and (iii) at every
    visited node, every candidate text key present in its settings with a
    string value has no underscore in the literal key and a value fixed by
    `_clean_html_content`.  Without (iii) the claim is false — see the
    counterexample: cleaning during extraction makes the written-back value
    differ from the original markup.  (Colors need no such proviso: the hex
    guard forces cleanliness and the color category names are
    underscore-free.) -/
theorem C2_identity_roundtrip (elementorData : JVal) (pageTitle pageSlug : String)
    (h1 : uniqKeys elementorData = true)
    (h2 : ((visitsExtract elementorData (.str "")).map
      (fun p => (getD p.1 "id" (.str ""), p.2))).Nodup)
    (h3 : ∀ p ∈ visitsExtract elementorData (.str ""), textKeysSafe p.1 = true) :
    replaceElementorContent elementorData
      (identityTexts (extractPageData elementorData pageTitle pageSlug).texts)
      (identityColors (extractPageData elementorData pageTitle pageSlug).colors)
      = elementorData := by
  unfold replaceElementorContent
  apply replaceRec_noop _ _ elementorData (.str "") h1
  intro q hq
  have hqe : q ∈ visitsExtract elementorData (.str "") :=
    visitsReplace_sub elementorData (.str "") q hq
  have hnq : nodupKeysB q.1 = true := by
    have hub := visitsExtract_uniq elementorData (.str "") h1 q hqe
    simp only [uniqKeys, Bool.and_eq_true] at hub
    exact hub.1
  intro kv hkv hks sfq hvv
  obtain ⟨k0, v0⟩ := kv
  have hks2 : k0 = "settings" := hks
  have hvv2 : v0 = JVal.obj sfq := hvv
  subst hks2
  subst hvv2
  have hlset : lookupF q.1 "settings" = some (.obj sfq) :=
    lookupF_of_nodup q.1 _ _ hnq hkv
  have hset : settingsOf q.1 = some sfq := by
    simp [settingsOf, getD, hlset]
  have hT : ∀ t ∈ identityTexts (extractPageData elementorData pageTitle pageSlug).texts,
      applyText (getD q.1 "id" (.str "")) q.2 sfq t = sfq := by
    intro t ht
    simp only [identityTexts, List.mem_map] at ht
    obtain ⟨r, hr, rfl⟩ := ht
    have hflat := (processElement_flatMap pageTitle elementorData (.str "")).1
    simp only [extractPageData] at hr
    rw [hflat] at hr
    simp only [List.mem_flatMap] at hr
    obtain ⟨p, hpE, hrp⟩ := hr
    obtain ⟨sfp, cat, k, content, hsetp, hcat, hk, hlp, hne, rfl⟩ :=
      mem_extractLabeledTexts_decomp _ _ _ _ _ _ hrp
    by_cases hm : getD p.1 "id" (.str "") = getD q.1 "id" (.str "") ∧ p.2 = q.2
    · have hpq : p = q := List.inj_on_of_nodup_map h2 hpE hqe
        (by simp only [hm.1, hm.2])
      subst hpq
      rw [hset] at hsetp
      injection hsetp with hsf
      subst hsf
      obtain ⟨hund, hclean⟩ := textKeysSafe_spec p.1 sfq cat k content (h3 p hqe) hset
        hcat hk hlp
      have hlabel : lastUnderscoreComp (cat.1 ++ "_" ++ k) = k :=
        lastUnderscoreComp_append cat.1 k hund
      simp only [applyText, hlabel, hclean, hlp, and_self, if_true]
      exact setF_lookup_self sfq k (.str content) hlp
    · simp [applyText, hm]
  have hC : ∀ t ∈ identityColors (extractPageData elementorData pageTitle pageSlug).colors,
      applyColor (getD q.1 "id" (.str "")) q.2 sfq t = sfq := by
    intro t ht
    simp only [identityColors, List.mem_map] at ht
    obtain ⟨r, hr, rfl⟩ := ht
    have hflat := (processElement_flatMap pageTitle elementorData (.str "")).2
    simp only [extractPageData] at hr
    rw [hflat] at hr
    simp only [List.mem_flatMap] at hr
    obtain ⟨p, hpE, hrp⟩ := hr
    obtain ⟨sfp, cat, k, cv, hsetp, hcat, hk, hlp, hhex, rfl⟩ :=
      mem_extractLabeledColors_decomp _ _ _ _ _ _ hrp
    by_cases hm : getD p.1 "id" (.str "") = getD q.1 "id" (.str "") ∧ p.2 = q.2
    · have hpq : p = q := List.inj_on_of_nodup_map h2 hpE hqe
        (by simp only [hm.1, hm.2])
      subst hpq
      rw [hset] at hsetp
      injection hsetp with hsf
      subst hsf
      have hvar : afterFirstUnderscore (cat.1 ++ "_" ++ k) = k :=
        afterFirstUnderscore_append cat.1 k (colorCats_noUnderscore cat hcat)
      simp only [applyColor, hvar, hlp, and_self, if_true]
      exact setF_lookup_self sfq k (.str cv) hlp
    · simp [applyColor, hm]
  unfold applyTexts applyColors
  rw [foldl_self (applyText (getD q.1 "id" (.str "")) q.2) sfq _ hT,
    foldl_self (applyColor (getD q.1 "id" (.str "")) q.2) sfq _ hC]

theorem C2_identity_roundtrip_witness :
    replaceElementorContent
        (.arr [.obj [("id", .str "a1"), ("elType", .str "section"),
          ("settings", .obj [("section_label", .str "Hero")]),
          ("elements", .arr [.obj [("id", .str "w1"), ("widgetType", .str "heading"),
            ("settings", .obj [("title", .str "Welcome"),
              ("title_color", .str "#222222")])]])]])
        (identityTexts (extractPageData
          (.arr [.obj [("id", .str "a1"), ("elType", .str "section"),
            ("settings", .obj [("section_label", .str "Hero")]),
            ("elements", .arr [.obj [("id", .str "w1"), ("widgetType", .str "heading"),
              ("settings", .obj [("title", .str "Welcome"),
                ("title_color", .str "#222222")])]])]]) "home" "home").texts)
        (identityColors (extractPageData
          (.arr [.obj [("id", .str "a1"), ("elType", .str "section"),
            ("settings", .obj [("section_label", .str "Hero")]),
            ("elements", .arr [.obj [("id", .str "w1"), ("widgetType", .str "heading"),
              ("settings", .obj [("title", .str "Welcome"),
                ("title_color", .str "#222222")])]])]]) "home" "home").colors)
      = .arr [.obj [("id", .str "a1"), ("elType", .str "section"),
          ("settings", .obj [("section_label", .str "Hero")]),
          ("elements", .arr [.obj [("id", .str "w1"), ("widgetType", .str "heading"),
            ("settings", .obj [("title", .str "Welcome"),
              ("title_color", .str "#222222")])]])]] :=
  C2_identity_roundtrip
    (.arr [.obj [("id", .str "a1"), ("elType", .str "section"),
      ("settings", .obj [("section_label", .str "Hero")]),
      ("elements", .arr [.obj [("id", .str "w1"), ("widgetType", .str "heading"),
        ("settings", .obj [("title", .str "Welcome"),
          ("title_color", .str "#222222")])]])]]) "home" "home"
    (by decide) (by decide) (by decide)

/-! ### Claim C1: the transform stage drops the identity fields -/

/-- **C1.**  Contrary to the spec, no transformed record carries any identity
    field: every record `_parse_text_transformations` (transformv2.py:246-280)
    emits — parsed from the LLM response or padded — is a dict whose keys are
    exactly `original` and `transformed`; in particular `widget_id` and
    `section_name` are absent, so the replace stage's subscript accesses
    `item['widget_id']` / `item['section_name']` (replacev2.py:119-124) can
    never find them on records produced by this pipeline's transform stage.
    The identity fields of the extracted records are discarded, not
    propagated. -/
theorem C1_transform_drops_identity_fields (resp : String) (originals : List JVal)
    (r : JVal) (h : r ∈ parseTextTransformations resp originals) :
    ∃ fields, r = JVal.obj fields ∧ keysOf fields = ["original", "transformed"] ∧
      lookupF fields "widget_id" = none ∧ lookupF fields "section_name" = none := by
  unfold parseTextTransformations at h
  simp only [List.mem_append] at h
  cases h with
  | inl hp =>
    simp only [List.mem_filterMap] at hp
    obtain ⟨ch, hch, hsome⟩ := hp
    cases hs : splitNEWOnce ch [] with
    | none => rw [hs] at hsome; simp at hsome
    | some p =>
      rw [hs] at hsome
      simp only [Option.some.injEq] at hsome
      subst hsome
      exact ⟨_, rfl, by simp [keysOf], by simp [lookupF], by simp [lookupF]⟩
  | inr hp =>
    simp only [List.mem_map] at hp
    obtain ⟨t, ht, hr⟩ := hp
    subst hr
    exact ⟨_, rfl, by simp [keysOf], by simp [lookupF], by simp [lookupF]⟩

theorem C1_transform_drops_identity_fields_witness :
    ∃ fields,
      JVal.obj [("original", JVal.str "Welcome"), ("transformed", JVal.str "Hello")]
        = JVal.obj fields ∧
      keysOf fields = ["original", "transformed"] ∧
      lookupF fields "widget_id" = none ∧ lookupF fields "section_name" = none :=
  C1_transform_drops_identity_fields "ORIGINAL: Welcome\nNEW: Hello"
    [.obj [("page_name", .str "home"), ("section_name", .str "Hero"),
      ("element_type", .str "heading"), ("label", .str "heading_title"),
      ("original_content", .str "Welcome"), ("widget_id", .str "w1")]]
    (.obj [("original", .str "Welcome"), ("transformed", .str "Hello")])
    (by decide)

/-! ### Claim C6: LLM failure degrades to the identity fallback per batch -/

/-- **C6.**  If the LLM call for one batch fails, that batch alone degrades to
    the identity fallback (`_generate_transformed_content`,
    transformv2.py:114-158, catching every exception and delegating to
    `_generate_fallback_content`, transformv2.py:160-172): each record of the
    failed batch appears with `transformed` equal to `original` (both the full
    input record), the output of the whole text loop is still the
    batch-by-batch concatenation — so the other batches' records are exactly
    what their own calls produce, unaffected by this failure — and the failed
    batch's identity records all appear in the final output; nothing
    escapes the per-batch handler, which in this total embedding is the fact
    that `transformTextsLoop` is defined on every input. -/
theorem C6_llm_failure_identity_fallback (llm : List JVal → Except String String)
    (texts batch : List JVal) (err : String)
    (hb : batch ∈ batchesOf5 texts) (he : llm batch = .error err) :
    transformTextsLoop llm texts =
      (batchesOf5 texts).flatMap (generateTransformedContent llm) ∧
    generateTransformedContent llm batch =
      batch.map (fun t => JVal.obj [("original", t), ("transformed", t)]) ∧
    ∀ t ∈ batch,
      JVal.obj [("original", t), ("transformed", t)] ∈ transformTextsLoop llm texts := by
  have hfall : generateTransformedContent llm batch =
      batch.map (fun t => JVal.obj [("original", t), ("transformed", t)]) := by
    unfold generateTransformedContent
    rw [he]
    rfl
  refine ⟨rfl, hfall, ?_⟩
  intro t ht
  unfold transformTextsLoop
  simp only [List.mem_flatMap]
  refine ⟨batch, hb, ?_⟩
  rw [hfall]
  exact List.mem_map_of_mem _ ht

theorem C6_llm_failure_identity_fallback_witness :
    transformTextsLoop (fun _ => .error "boom") [.str "a", .str "b"] =
      (batchesOf5 [.str "a", .str "b"]).flatMap
        (generateTransformedContent (fun _ => .error "boom")) ∧
    generateTransformedContent (fun _ => .error "boom") [.str "a", .str "b"] =
      [JVal.str "a", JVal.str "b"].map
        (fun t => JVal.obj [("original", t), ("transformed", t)]) ∧
    ∀ t ∈ [JVal.str "a", JVal.str "b"],
      JVal.obj [("original", t), ("transformed", t)] ∈
        transformTextsLoop (fun _ => .error "boom") [.str "a", .str "b"] :=
  C6_llm_failure_identity_fallback (fun _ => .error "boom") [.str "a", .str "b"]
    [.str "a", .str "b"] "boom" (by decide) rfl

/-! ### Claim C7: palette padding repeats the first color, it does not cycle -/

theorem padColorsLoopF_cons (c : String) :
    ∀ (fuel n : Nat) (acc : List String), acc.head? = some c → n - acc.length ≤ fuel →
      padColorsLoopF fuel n acc = acc ++ List.replicate (n - acc.length) c := by
  intro fuel
  induction fuel with
  | zero =>
    intro n acc _ hle
    have h0 : n - acc.length = 0 := Nat.le_zero.mp hle
    simp [padColorsLoopF, h0]
  | succ f ih =>
    intro n acc hh hle
    cases acc with
    | nil => simp at hh
    | cons a tl =>
      simp only [List.head?, Option.some.injEq] at hh
      subst hh
      simp only [List.length_cons] at hle
      by_cases hlt : (a :: tl).length < n
      · have hlt2 : tl.length + 1 < n := by
          simpa only [List.length_cons] using hlt
        simp only [padColorsLoopF, hlt, if_true]
        rw [ih n ((a :: tl) ++ [a]) (by simp)
          (by simp only [List.length_append, List.length_cons, List.length_nil]; omega)]
        rw [List.append_assoc]
        congr 1
        have h1 : n - (a :: tl).length = (n - ((a :: tl) ++ [a]).length) + 1 := by
          simp only [List.length_append, List.length_cons, List.length_nil]
          omega
        rw [h1, List.replicate_succ]
        simp
      · have hlt2 : ¬ tl.length + 1 < n := by
          simpa only [List.length_cons] using hlt
        simp only [padColorsLoopF, hlt, if_false]
        have h0 : n - (tl.length + 1) = 0 := by omega
        simp [h0]

theorem padColorsLoopF_nil : ∀ (fuel n : Nat), n ≤ fuel →
    padColorsLoopF fuel n [] = List.replicate n "#000000" := by
  intro fuel n h
  cases n with
  | zero => cases fuel <;> simp [padColorsLoopF]
  | succ m =>
    cases fuel with
    | zero => omega
    | succ f =>
      have hstep : padColorsLoopF (f + 1) (m + 1) [] =
          padColorsLoopF f (m + 1) ["#000000"] := by
        simp [padColorsLoopF]
      rw [hstep,
        padColorsLoopF_cons "#000000" f (m + 1) ["#000000"] rfl
          (by simp only [List.length_cons, List.length_nil]; omega)]
      simp [List.replicate_succ]

/-- **C7, counterexample.**  With two parsed colors and four current colors,
    the padding loop of `_generate_color_palette` (transformv2.py:224-226)
    appends `new_colors[len(new_colors) % len(new_colors)]` — a constant
    index `0` — so it repeats the *first* returned color instead of cycling
    through the returned colors in order as the claim states. -/
theorem C7_counterexample :
    generateColorPaletteColors "NEW COLORS: #111111 #222222"
        [.obj [], .obj [], .obj [], .obj []] ≠
      cyclePadColors 4 (parsedPaletteColors "NEW COLORS: #111111 #222222") ∧
    generateColorPaletteColors "NEW COLORS: #111111 #222222"
        [.obj [], .obj [], .obj [], .obj []] =
      ["#111111", "#222222", "#111111", "#111111"] ∧
    cyclePadColors 4 (parsedPaletteColors "NEW COLORS: #111111 #222222") =
      ["#111111", "#222222", "#111111", "#222222"] :=
  ⟨by decide, by decide, by decide⟩

/-- **C7, amended.**  The returned new-color list always has exactly the
    input length (that part of the claim holds); when zero colors were parsed
    it is `#000000` repeated; but when at least one color was parsed, the
    shortfall is padded by repeating the *first* parsed color — index
    `len(new_colors) % len(new_colors) = 0` on every iteration — not by
    cycling through the parsed colors in order. -/
theorem C7_padding_repeats_first (respText : String) (currents : List JVal) :
    (generateColorPaletteColors respText currents).length = currents.length ∧
    generateColorPaletteColors respText currents =
      (if parsedPaletteColors respText = [] then
        List.replicate currents.length "#000000"
      else
        (parsedPaletteColors respText ++
          List.replicate (currents.length - (parsedPaletteColors respText).length)
            ((parsedPaletteColors respText).headD "#000000")).take
          currents.length) := by
  cases hp : parsedPaletteColors respText with
  | nil =>
    unfold generateColorPaletteColors padColorsLoop
    rw [hp, padColorsLoopF_nil currents.length currents.length (Nat.le_refl _)]
    constructor
    · simp
    · simp
  | cons c tl =>
    unfold generateColorPaletteColors padColorsLoop
    rw [hp, padColorsLoopF_cons c currents.length currents.length (c :: tl) rfl
      (Nat.sub_le _ _)]
    constructor
    · simp only [List.length_take, List.length_append, List.length_replicate,
        List.length_cons]
      omega
    · simp

end Elementor
